import Mathlib

/-!
Verification development for the `daily_ai_timeline` ingestion–dedupe–ranking
pipeline (`dedupe.py`, `utils.py`, `config.py`, `ingest.py`).

The Python code is shallowly embedded: Python `float` arithmetic on scores,
similarity ratios and hours is modelled with `ℚ` (all quantities compared in
the claims are far from binary-representation boundaries), `datetime` is
modelled as a wall-clock value in seconds together with an optional UTC
offset, and functions that can raise at runtime return `Option`.
Standard-library collaborators (`urllib.parse`, `difflib.SequenceMatcher`,
`re.findall`) are embedded faithfully for the input space exercised here;
ASCII-only simplifications (Python's `str.lower`, `\b` word boundaries and
`str.strip` are Unicode-aware) are noted where they occur.
-/

namespace DailyAITimeline

/-! ## Kernel-computable rational arithmetic

Batteries marks `Rat.add`, `Rat.sub`, `Rat.mul` and `Rat.inv` irreducible,
which blocks `decide`-style evaluation of concrete scores and similarity
ratios.  The embedding therefore computes with the `Rat.divInt` forms below;
`ratAdd_eq` … `ratDiv_eq` prove them equal to the ordinary field operations,
so theorems can be stated with `+ - * /`. -/

def ratAdd (a b : ℚ) : ℚ := Rat.divInt (a.num * b.den + b.num * a.den) (a.den * b.den)

def ratSub (a b : ℚ) : ℚ := Rat.divInt (a.num * b.den - b.num * a.den) (a.den * b.den)

def ratMul (a b : ℚ) : ℚ := Rat.divInt (a.num * b.num) (a.den * b.den)

def ratDiv (a b : ℚ) : ℚ := Rat.divInt (a.num * b.den) (a.den * b.num)

/-! ## Python `datetime` model (only what `utils.hours_since` needs)

A `PyDatetime` is a wall-clock reading `wall` (seconds since the epoch, as
written on the clock face) plus `tzOffset`, the `utcoffset()` of the attached
timezone in seconds; `none` models a timezone-naive datetime.  The absolute
instant of an aware datetime is `wall - offset`. -/

structure PyDatetime where
  wall : ℚ
  tzOffset : Option ℚ
deriving DecidableEq, Repr

/-- Model of `dt.replace(tzinfo=timezone.utc)` applied when `dt.tzinfo is None`:
the wall-clock value is kept and reinterpreted as UTC. -/
def asUTCIfNaive (d : PyDatetime) : PyDatetime :=
  if d.tzOffset = none then { d with tzOffset := some 0 } else d

/-- Absolute instant (seconds) of an aware datetime. -/
def instantSeconds (d : PyDatetime) : ℚ :=
  ratSub d.wall (d.tzOffset.getD 0)

/-- utils.py lines 38-47, `hours_since`: naive datetimes on either side are
reinterpreted as UTC, then `(reference - dt).total_seconds() / 3600`. -/
def hours_since (dt : PyDatetime) (reference : PyDatetime) : ℚ :=
  let dt' := asUTCIfNaive dt
  let reference' := asUTCIfNaive reference
  ratDiv (ratSub (instantSeconds reference') (instantSeconds dt')) 3600

/-! ## Character-level helpers shared by the `urllib.parse` and `re` models -/

def lowerChars (l : List Char) : List Char := l.map Char.toLower

/-- Model of Python `str.lower()` (ASCII range; inputs here are ASCII). -/
def lowerStr (s : String) : String := String.mk (lowerChars s.data)

/-- The whitespace characters removed by Python `str.strip()` (ASCII range). -/
def pyIsSpace (c : Char) : Bool :=
  c == ' ' || c == '\t' || c == '\n' || c == '\r' || c == Char.ofNat 11 || c == Char.ofNat 12

/-- Model of Python `str.strip()`. -/
def pyStripChars (l : List Char) : List Char :=
  ((l.dropWhile pyIsSpace).reverse.dropWhile pyIsSpace).reverse

/-- Split a list at the first occurrence of `c`, like `str.split(c, 1)` /
`str.find(c)`; `none` when `c` does not occur. -/
def splitAtFirst (c : Char) : List Char → Option (List Char × List Char)
  | [] => none
  | a :: rest =>
    if a = c then some ([], rest)
    else
      match splitAtFirst c rest with
      | none => none
      | some (x, y) => some (a :: x, y)

/-- Longest initial segment on which `p` is false, together with the rest. -/
def spanNot (p : Char → Bool) : List Char → List Char × List Char
  | [] => ([], [])
  | a :: rest =>
    if p a then ([], a :: rest)
    else
      let (x, y) := spanNot p rest
      (a :: x, y)

/-- Longest initial segment on which `p` is true, together with the rest
(greedy munch of a regex character class). -/
def spanP (p : Char → Bool) : List Char → List Char × List Char
  | [] => ([], [])
  | a :: rest =>
    if p a then
      let (x, y) := spanP p rest
      (a :: x, y)
    else ([], a :: rest)

/-! ## `urllib.parse` model: `urlparse`, `parse_qs`, `urlencode`, `urlunparse`

Only the behavior reachable from `utils.normalize_url` is modelled; the
WHATWG control-character stripping and the IPv6-bracket / NFKC validation
raises of `urlsplit` (never triggered by the URLs this repository feeds in)
are omitted. -/

def isSchemeChar (c : Char) : Bool :=
  c.isAlphanum || c == '+' || c == '-' || c == '.'

/-- Scheme detection of `urlsplit`: a leading `name:` where `name` is nonempty,
starts with an ASCII letter and continues with scheme characters is split off
and lowercased; otherwise the URL is left untouched. -/
def splitScheme (url : List Char) : List Char × List Char :=
  match splitAtFirst ':' url with
  | none => ([], url)
  | some (before, after) =>
    match before with
    | [] => ([], url)
    | c0 :: rest =>
      if c0.isAlpha && rest.all isSchemeChar then (lowerChars (c0 :: rest), after)
      else ([], url)

def isNetlocEnd (c : Char) : Bool := c == '/' || c == '?' || c == '#'

structure UrlSplitResult where
  scheme : List Char
  netloc : List Char
  path : List Char
  query : List Char
  fragment : List Char
deriving DecidableEq, Repr

/-- Model of `urllib.parse.urlsplit` (WHATWG lstrip of C0 controls and
spaces, removal of tab/CR/LF, scheme, then `//netloc` up to the first of
`/?#`, then fragment split at the first `#`, then query at the first `?`). -/
def pyUrlsplit (url0 : List Char) : UrlSplitResult :=
  let url := (url0.dropWhile (fun c => c.toNat ≤ 0x20)).filter
    (fun c => !(c == '\t' || c == '\r' || c == '\n'))
  let (scheme, rest1) := splitScheme url
  let (netloc, rest2) :=
    match rest1 with
    | '/' :: '/' :: r => spanNot isNetlocEnd r
    | _ => ([], rest1)
  let (rest3, fragment) :=
    match splitAtFirst '#' rest2 with
    | some (x, y) => (x, y)
    | none => (rest2, [])
  let (path, query) :=
    match splitAtFirst '?' rest3 with
    | some (x, y) => (x, y)
    | none => (rest3, [])
  ⟨scheme, netloc, path, query, fragment⟩

/-- Model of `urllib.parse._splitparams` (called only when `';'` occurs in the
path): the params are everything after the first `';'` in the last path
segment; if the last segment has no `';'`, nothing is split off. -/
def pySplitparams (url : List Char) : List Char × List Char :=
  if url.contains '/' then
    let (revSeg, revRest) := spanNot (fun c => c == '/') url.reverse
    match splitAtFirst ';' revSeg.reverse with
    | none => (url, [])
    | some (x, y) => (revRest.reverse ++ x, y)
  else
    match splitAtFirst ';' url with
    | none => (url, [])
    | some (x, y) => (x, y)

structure UrlParseResult where
  scheme : List Char
  netloc : List Char
  path : List Char
  params : List Char
  query : List Char
  fragment : List Char
deriving DecidableEq, Repr

/-- Model of `urllib.parse.urlparse`. -/
def pyUrlparse (url : List Char) : UrlParseResult :=
  let s := pyUrlsplit url
  let (path, params) :=
    if s.path.contains ';' then pySplitparams s.path else (s.path, [])
  ⟨s.scheme, s.netloc, path, params, s.query, s.fragment⟩

/-! ### Percent-encoding (`quote_plus` / `unquote`) -/

def hexDigitUpper (n : Nat) : Char :=
  if n < 10 then Char.ofNat ('0'.toNat + n) else Char.ofNat ('A'.toNat + n - 10)

def utf8Bytes (c : Char) : List Nat :=
  let n := c.toNat
  if n < 0x80 then [n]
  else if n < 0x800 then [0xC0 + n / 0x40, 0x80 + n % 0x40]
  else if n < 0x10000 then
    [0xE0 + n / 0x1000, 0x80 + n / 0x40 % 0x40, 0x80 + n % 0x40]
  else
    [0xF0 + n / 0x40000, 0x80 + n / 0x1000 % 0x40, 0x80 + n / 0x40 % 0x40, 0x80 + n % 0x40]

/-- The characters `urllib.parse.quote` never encodes (`_ALWAYS_SAFE`, with
the default `safe=''` used by `quote_plus`). -/
def isQuoteSafe (c : Char) : Bool :=
  c.isAlphanum || c == '_' || c == '.' || c == '-' || c == '~'

def quotePlusChar (c : Char) : List Char :=
  if c == ' ' then ['+']
  else if isQuoteSafe c then [c]
  else (utf8Bytes c).flatMap (fun b => ['%', hexDigitUpper (b / 16), hexDigitUpper (b % 16)])

/-- Model of `urllib.parse.quote_plus` with `safe=''`. -/
def quotePlus (s : List Char) : List Char := s.flatMap quotePlusChar

def hexVal (c : Char) : Option Nat :=
  if '0' ≤ c ∧ c ≤ '9' then some (c.toNat - '0'.toNat)
  else if 'a' ≤ c ∧ c ≤ 'f' then some (c.toNat - 'a'.toNat + 10)
  else if 'A' ≤ c ∧ c ≤ 'F' then some (c.toNat - 'A'.toNat + 10)
  else none

/-- Tokenize a percent-encoded string: each valid `%HH` escape becomes a byte
(`Sum.inr`), every other character stays literal (`Sum.inl`). -/
def pctTokens : List Char → List (Sum Char Nat)
  | [] => []
  | '%' :: h :: l :: rest2 =>
    match hexVal h, hexVal l with
    | some hv, some lv => Sum.inr (hv * 16 + lv) :: pctTokens rest2
    | _, _ => Sum.inl '%' :: pctTokens (h :: l :: rest2)
  | c :: rest => Sum.inl c :: pctTokens rest

/-- UTF-8 decoding of a byte run with `errors='replace'` (U+FFFD on a
malformed byte); fuelled, `l.length` fuel suffices since every step consumes
at least one byte. -/
def utf8DecodeFuel : Nat → List Nat → List Char
  | 0, _ => []
  | _, [] => []
  | fuel + 1, b :: rest =>
    if b < 0x80 then Char.ofNat b :: utf8DecodeFuel fuel rest
    else if 0xC2 ≤ b ∧ b ≤ 0xDF then
      match rest with
      | b1 :: r1 =>
        if 0x80 ≤ b1 ∧ b1 ≤ 0xBF then
          Char.ofNat ((b - 0xC0) * 0x40 + (b1 - 0x80)) :: utf8DecodeFuel fuel r1
        else Char.ofNat 0xFFFD :: utf8DecodeFuel fuel rest
      | [] => [Char.ofNat 0xFFFD]
    else if 0xE0 ≤ b ∧ b ≤ 0xEF then
      match rest with
      | b1 :: b2 :: r2 =>
        if (0x80 ≤ b1 ∧ b1 ≤ 0xBF) ∧ (0x80 ≤ b2 ∧ b2 ≤ 0xBF) then
          Char.ofNat ((b - 0xE0) * 0x1000 + (b1 - 0x80) * 0x40 + (b2 - 0x80)) ::
            utf8DecodeFuel fuel r2
        else Char.ofNat 0xFFFD :: utf8DecodeFuel fuel rest
      | _ => [Char.ofNat 0xFFFD]
    else if 0xF0 ≤ b ∧ b ≤ 0xF4 then
      match rest with
      | b1 :: b2 :: b3 :: r3 =>
        if (0x80 ≤ b1 ∧ b1 ≤ 0xBF) ∧ (0x80 ≤ b2 ∧ b2 ≤ 0xBF) ∧ (0x80 ≤ b3 ∧ b3 ≤ 0xBF) then
          Char.ofNat
              ((b - 0xF0) * 0x40000 + (b1 - 0x80) * 0x1000 + (b2 - 0x80) * 0x40 + (b3 - 0x80)) ::
            utf8DecodeFuel fuel r3
        else Char.ofNat 0xFFFD :: utf8DecodeFuel fuel rest
      | _ => [Char.ofNat 0xFFFD]
    else Char.ofNat 0xFFFD :: utf8DecodeFuel fuel rest

def utf8Decode (l : List Nat) : List Char := utf8DecodeFuel l.length l

/-- Collect a maximal run of decoded bytes at the head of the token list. -/
def spanBytes : List (Sum Char Nat) → List Nat × List (Sum Char Nat)
  | Sum.inr b :: rest =>
    let (bs, r) := spanBytes rest
    (b :: bs, r)
  | other => ([], other)

/-- Decode the token stream: maximal byte runs are UTF-8 decoded together (as
`unquote` does between `%`-escape clusters), literals pass through; fuelled,
`l.length` fuel suffices. -/
def decodeTokensFuel : Nat → List (Sum Char Nat) → List Char
  | 0, _ => []
  | _, [] => []
  | fuel + 1, Sum.inl c :: rest => c :: decodeTokensFuel fuel rest
  | fuel + 1, Sum.inr b :: rest =>
    let p := spanBytes rest
    utf8Decode (b :: p.1) ++ decodeTokensFuel fuel p.2

def decodeTokens (l : List (Sum Char Nat)) : List Char :=
  decodeTokensFuel l.length l

/-- Model of `urllib.parse.unquote_plus` as used by `parse_qsl`:
`'+' → ' '` replacement followed by percent-decoding. -/
def pyUnquotePlus (s : List Char) : List Char :=
  decodeTokens (pctTokens (s.map (fun c => if c == '+' then ' ' else c)))

/-! ### `parse_qs` and `urlencode` -/

/-- Model of `str.split(sep)` (on a nonempty string). -/
def splitOnChar (sep : Char) : List Char → List (List Char)
  | [] => [[]]
  | c :: rest =>
    let r := splitOnChar sep rest
    if c = sep then [] :: r
    else
      match r with
      | [] => [[c]]
      | x :: xs => (c :: x) :: xs

/-- Model of `urllib.parse.parse_qsl` with its defaults
(`keep_blank_values=False`, separator `'&'`): empty fields, fields without
`'='` and fields with an empty value are all dropped; names and values go
through `unquote_plus`. -/
def parse_qsl (qs : List Char) : List (List Char × List Char) :=
  let fields := if qs = [] then [] else splitOnChar '&' qs
  fields.foldr
    (fun nv acc =>
      if nv = [] then acc
      else
        match splitAtFirst '=' nv with
        | none => acc
        | some (n, v) =>
          if v = [] then acc
          else (pyUnquotePlus n, pyUnquotePlus v) :: acc)
    []

/-- Model of the dict built by `urllib.parse.parse_qs`: keys in order of first
occurrence, each carrying its values in occurrence order.  Fuelled (so that
the kernel can evaluate it); `l.length` fuel suffices because the filtered
remainder is never longer than the tail. -/
def groupPairsFuel : Nat → List (List Char × List Char) → List (List Char × List (List Char))
  | 0, _ => []
  | _, [] => []
  | fuel + 1, (k, v) :: rest =>
    (k, v :: (rest.filter (fun kv => decide (kv.1 = k))).map (fun kv => kv.2)) ::
      groupPairsFuel fuel (rest.filter (fun kv => decide (kv.1 ≠ k)))

def groupPairs (l : List (List Char × List Char)) : List (List Char × List (List Char)) :=
  groupPairsFuel l.length l

/-- Model of `urllib.parse.parse_qs` (composition of `parse_qsl` and the
insertion-ordered dict). -/
def parse_qs (qs : List Char) : List (List Char × List (List Char)) :=
  groupPairs (parse_qsl qs)

/-- Model of `urllib.parse.urlencode(..., doseq=True)` on the multidict. -/
def urlencodeDoseq (l : List (List Char × List (List Char))) : List Char :=
  List.intercalate ['&']
    (l.flatMap (fun kvs => kvs.2.map (fun v => quotePlus kvs.1 ++ '=' :: quotePlus v)))

/-- Model of `urllib.parse.urlunparse` (via `urlunsplit`). -/
def pyUrlunparse (scheme netloc path params query fragment : List Char) : List Char :=
  let url1 := if params = [] then path else path ++ ';' :: params
  let url2 :=
    if netloc ≠ [] ∨ (url1 ≠ [] ∧ url1.take 2 = ['/', '/']) then
      let url3 := if url1 ≠ [] ∧ url1.take 1 ≠ ['/'] then '/' :: url1 else url1
      '/' :: '/' :: (netloc ++ url3)
    else url1
  let url4 := if scheme ≠ [] then scheme ++ ':' :: url2 else url2
  let url5 := if query ≠ [] then url4 ++ '?' :: query else url4
  if fragment ≠ [] then url5 ++ '#' :: fragment else url5

/-! ## `utils.normalize_url` (utils.py lines 50-88) -/

/-- The tracking-parameter deny-list of `normalize_url`. -/
def trackingParams : List (List Char) :=
  [("utm_source" : String).data, ("utm_medium" : String).data,
   ("utm_campaign" : String).data, ("utm_term" : String).data,
   ("utm_content" : String).data, ("ref" : String).data,
   ("source" : String).data, ("fbclid" : String).data, ("gclid" : String).data]

/-- Model of `netloc[4:] if netloc.startswith("www.") else netloc`. -/
def stripWWW (netloc : List Char) : List Char :=
  match netloc with
  | 'w' :: 'w' :: 'w' :: '.' :: rest => rest
  | l => l

/-- Model of `path.rstrip("/")`: every trailing slash is removed. -/
def rstripSlash (path : List Char) : List Char :=
  (path.reverse.dropWhile (fun c => c == '/')).reverse

/-- utils.py lines 50-88, `normalize_url`. -/
def normalize_url (url : String) : String :=
  let parsed := pyUrlparse url.data
  let netloc := stripWWW parsed.netloc
  let query_params := parse_qs parsed.query
  let filtered_params :=
    query_params.filter (fun kv => decide (lowerChars kv.1 ∉ trackingParams))
  let new_query := urlencodeDoseq filtered_params
  String.mk
    (pyUrlunparse (lowerChars parsed.scheme) (lowerChars netloc)
      (rstripSlash parsed.path) parsed.params new_query [])

/-! ## `utils.extract_numbers` (utils.py lines 91-102)

Each of the four regex patterns is embedded as a matcher
`List Char → Option (match, rest)` tried at one position; `re.findall`
semantics (leftmost, non-overlapping, advance past each match) is the fuelled
scanner below.  For each pattern the greedy maximal-munch matcher is
equivalent to Python's backtracking match, because the character classes of
adjacent pieces are disjoint; `IGNORECASE` makes `[BMK]` also accept the
lowercase letters, and `\b` / `\d` are modelled on the ASCII range. -/

def isBMK (c : Char) : Bool :=
  c == 'B' || c == 'M' || c == 'K' || c == 'b' || c == 'm' || c == 'k'

def isWordChar (c : Char) : Bool := c.isAlphanum || c == '_'

/-- The optional `(?:\.\d+)?` group of the currency pattern: the decimal
part consumed (possibly empty) and the remainder. -/
def currencyDec (r1 : List Char) : List Char × List Char :=
  match r1 with
  | c1 :: r =>
    if c1 = '.' then
      let ds := spanP Char.isDigit r
      if ds.1 = [] then ([], r1) else ('.' :: ds.1, ds.2)
    else ([], r1)
  | [] => ([], r1)

/-- Pattern `\$[\d,]+(?:\.\d+)?[BMK]?`. -/
def matchCurrency : List Char → Option (List Char × List Char)
  | [] => none
  | c0 :: rest =>
    if c0 = '$' then
      let pr := spanP (fun c => c.isDigit || c == ',') rest
      if pr.1 = [] then none
      else
        let dc := currencyDec pr.2
        match dc.2 with
        | c :: r3 =>
          if isBMK c then some ('$' :: pr.1 ++ dc.1 ++ [c], r3)
          else some ('$' :: pr.1 ++ dc.1, dc.2)
        | [] => some ('$' :: pr.1 ++ dc.1, [])
    else none

/-- Pattern `[\d.]+[BMK]\b`. -/
def matchMagnitude (l : List Char) : Option (List Char × List Char) :=
  let pr := spanP (fun c => c.isDigit || c == '.') l
  if pr.1 = [] then none
  else
    match pr.2 with
    | c :: r2 =>
      if isBMK c then
        match r2 with
        | [] => some (pr.1 ++ [c], [])
        | d :: _ => if isWordChar d then none else some (pr.1 ++ [c], r2)
      else none
    | [] => none

/-- Pattern `\d{4}`. -/
def matchYear : List Char → Option (List Char × List Char)
  | a :: b :: c :: d :: rest =>
    if a.isDigit && b.isDigit && c.isDigit && d.isDigit then some ([a, b, c, d], rest)
    else none
  | _ => none

/-- Pattern `\d+(?:\.\d+)?%`. -/
def matchPercent (l : List Char) : Option (List Char × List Char) :=
  let (digits, r1) := spanP Char.isDigit l
  if digits = [] then none
  else
    let (dec, r2) :=
      match r1 with
      | '.' :: r =>
        let (ds, rr) := spanP Char.isDigit r
        if ds = [] then (([] : List Char), r1) else ('.' :: ds, rr)
      | _ => ([], r1)
    match r2 with
    | '%' :: r3 => some (digits ++ dec ++ ['%'], r3)
    | _ => none

/-- Fuelled `re.findall` scanner: at each position try the matcher; on success
emit the match and continue after it, otherwise advance one character.  Every
matcher consumes at least one character, so fuel `l.length` suffices. -/
def findallFuel (m : List Char → Option (List Char × List Char)) : Nat → List Char → List (List Char)
  | 0, _ => []
  | _, [] => []
  | fuel + 1, c :: rest =>
    match m (c :: rest) with
    | some (mt, r) => mt :: findallFuel m fuel r
    | none => findallFuel m fuel rest

def findall (m : List Char → Option (List Char × List Char)) (l : List Char) : List (List Char) :=
  findallFuel m l.length l

/-- utils.py lines 91-102, `extract_numbers`: the four patterns run
sequentially over the whole text and their matches are concatenated. -/
def extract_numbers (text : String) : List String :=
  let t := text.data
  (findall matchCurrency t ++ findall matchMagnitude t ++
    findall matchYear t ++ findall matchPercent t).map String.mk

/-- Model of Python substring containment: does `needle` occur at the start
of `hay`? -/
def takesAt : List Char → List Char → Bool
  | [], _ => true
  | _ :: _, [] => false
  | a :: x, b :: y => a == b && takesAt x y

/-- Model of Python `needle in hay` for strings. -/
def hasSubstr (needle : List Char) : List Char → Bool
  | [] => takesAt needle []
  | c :: t => takesAt needle (c :: t) || hasSubstr needle t

/-! ## `config.py`: credibility table and keyword list -/

def SOURCE_CREDIBILITY : List (String × ℚ) :=
  [("OpenAI Blog", 20), ("Anthropic Blog", 20), ("DeepMind Blog", 20),
   ("arXiv", 18), ("MIT Tech Review AI", 15), ("TechCrunch AI", 12),
   ("The Verge AI", 10), ("Ars Technica AI", 10), ("Wired AI", 10),
   ("Reddit r/MachineLearning", 10), ("Reddit r/artificial", 8),
   ("Hacker News", 8)]

/-- Model of `SOURCE_CREDIBILITY.get(name, 5)`. -/
def credibilityGet (name : String) : ℚ :=
  match SOURCE_CREDIBILITY.find? (fun kv => kv.1 == name) with
  | some kv => kv.2
  | none => 5

def SCORING_KEYWORDS : List String :=
  ["release", "launch", "benchmark", "acquisition", "policy", "compute",
   "robot", "AGI", "breakthrough", "billion", "million", "partnership",
   "regulation", "safety", "alignment"]

/-! ## `ingest.NewsItem` (ingest.py lines 42-52) -/

structure NewsItem where
  title : String
  url : String
  source : String
  published : PyDatetime
  summary : String
  content : String
  authors : List String
  score : ℚ
deriving DecidableEq, Repr

/-! ## `difflib.SequenceMatcher.ratio` model

`title_similarity` lowercases and strips both titles and returns
`SequenceMatcher(None, t1, t2).ratio()`.  The ratio is `2*M/T` where `M` is
the total size of the matching blocks and `T` the total length.  Matching
blocks are found by recursively taking the longest common block; with no junk
(`autojunk` only activates on strings of length ≥ 200, and all strings
compared in this development are shorter) `find_longest_match` returns the
longest common substring, ties broken towards the smallest start in the first
string and then the smallest start in the second. -/

/-- Length of the longest common initial segment of two lists. -/
def commonPre : List Char → List Char → Nat
  | a :: x, b :: y => if a = b then commonPre x y + 1 else 0
  | _, _ => 0

/-- The `j2len` entry of CPython's `find_longest_match` at `(i, j)`: the
length of the longest common suffix of `a[..i+1]` and `b[..j+1]` (zero when
`a[i] ≠ b[j]`). -/
def suffLen (a b : List Char) (i j : Nat) : Nat :=
  commonPre (a.take (i + 1)).reverse (b.take (j + 1)).reverse

/-- Keep the earlier candidate unless the later one is strictly larger —
exactly the `if k > bestsize` update rule of CPython's scan. -/
def flmCombine (x y : Nat × Nat × Nat) : Nat × Nat × Nat :=
  if y.1 > x.1 then y else x

def pairUp (f : α → α → α) : List α → List α
  | x :: y :: rest => f x y :: pairUp f rest
  | l => l

/-- Balanced reduction of a nonempty list by an operation; used instead of a
left fold so that kernel evaluation does not build linearly deep thunks. -/
def treeReduceFuel (f : α → α → α) (dflt : α) : Nat → List α → α
  | _, [x] => x
  | 0, _ => dflt
  | _ + 1, [] => dflt
  | fuel + 1, l => treeReduceFuel f dflt fuel (pairUp f l)

/-- Model of `SequenceMatcher.find_longest_match` on the whole ranges,
returning `(size, i, j)`.  CPython scans end positions `i` ascending and, per
`i`, `j` ascending, replacing the best block exactly when the suffix length
strictly exceeds the current best size; that left scan selects the first
candidate of maximal size, which `flmCombine` computes over any reduction
tree because "first maximum" splits associatively. -/
def findLongestMatch (a b : List Char) : Nat × Nat × Nat :=
  let candidates :=
    (List.range a.length).flatMap (fun i =>
      (List.range b.length).map (fun j =>
        (suffLen a b i j, i + 1 - suffLen a b i j, j + 1 - suffLen a b i j)))
  treeReduceFuel flmCombine (0, 0, 0) (candidates.length + 1) ((0, 0, 0) :: candidates)

/-- Total size of all matching blocks (`get_matching_blocks` recursion);
fuelled, with fuel bounded by the recursion depth. -/
def totalMatchedFuel : Nat → List Char → List Char → Nat
  | 0, _, _ => 0
  | fuel + 1, a, b =>
    let m := findLongestMatch a b
    if m.1 = 0 then 0
    else
      m.1 + totalMatchedFuel fuel (a.take m.2.1) (b.take m.2.2) +
        totalMatchedFuel fuel (a.drop (m.2.1 + m.1)) (b.drop (m.2.2 + m.1))

def totalMatched (a b : List Char) : Nat :=
  totalMatchedFuel (a.length + b.length + 1) a b

/-- Model of `SequenceMatcher.ratio()`: `2*M/T`, and `1.0` when both strings
are empty (difflib's `_calculate_ratio`). -/
def pyRatio (a b : List Char) : ℚ :=
  let t := a.length + b.length
  if t = 0 then 1 else ratDiv ((2 * totalMatched a b : ℕ) : ℚ) (t : ℚ)

/-! ## `dedupe.py` -/

/-- dedupe.py line 24: the float literal `0.85`. -/
def TITLE_SIMILARITY_THRESHOLD : ℚ := mkRat 85 100

/-- dedupe.py lines 27-42, `title_similarity`. -/
def title_similarity (title1 title2 : String) : ℚ :=
  pyRatio (pyStripChars (lowerChars title1.data)) (pyStripChars (lowerChars title2.data))

/-- The URL pass of `deduplicate_items` (dedupe.py lines 61-69): keep the
first item per normalized URL. -/
def urlDedupGo : List NewsItem → List String → List NewsItem
  | [], _ => []
  | item :: rest, seen_urls =>
    if normalize_url item.url ∈ seen_urls then urlDedupGo rest seen_urls
    else item :: urlDedupGo rest (normalize_url item.url :: seen_urls)

/-- The inner scan of the fuzzy pass (dedupe.py lines 80-97): the loop body
breaks at the first entry whose similarity reaches the threshold. -/
def firstSimilar (similarity_threshold : ℚ) (item : NewsItem) :
    List NewsItem → Option NewsItem
  | [] => none
  | existing :: rest =>
    if similarity_threshold ≤ title_similarity item.title existing.title then some existing
    else firstSimilar similarity_threshold item rest

/-- One iteration of the outer fuzzy loop (dedupe.py lines 77-100): no match
appends the item; a first match with strictly higher incoming credibility
removes the matched entry (`list.remove`, i.e. first occurrence) and appends
the item at the end; otherwise the item is dropped. -/
def fuzzyStep (similarity_threshold : ℚ) (deduplicated : List NewsItem)
    (item : NewsItem) : List NewsItem :=
  match firstSimilar similarity_threshold item deduplicated with
  | none => deduplicated ++ [item]
  | some existing =>
    if credibilityGet existing.source < credibilityGet item.source then
      deduplicated.erase existing ++ [item]
    else deduplicated

/-- dedupe.py lines 45-107, `deduplicate_items`. -/
def deduplicate_items (items : List NewsItem)
    (similarity_threshold : ℚ) : List NewsItem :=
  if items = [] then []
  else
    let url_unique := urlDedupGo items []
    url_unique.foldl (fuzzyStep similarity_threshold) []

/-- The recency component of `score_item` (dedupe.py lines 137-143):
`max(0, 30 * (1 - hours_old / lookback_hours))`. -/
def recencyScore (published reference_time : PyDatetime) (lookback_hours : ℚ) : ℚ :=
  let hours_old := hours_since published reference_time
  max 0 (ratMul 30 (ratSub 1 (ratDiv hours_old lookback_hours)))

/-- The numbers component of `score_item` (dedupe.py lines 149-154): the
patterns run over `f"{title} {summary}"`; a nonempty match list contributes
`min(10, 3*len)`. -/
def numbersScoreOf (item : NewsItem) : ℚ :=
  let numbers := extract_numbers (item.title ++ " " ++ item.summary)
  if numbers = [] then 0 else min 10 ((numbers.length * 3 : ℕ) : ℚ)

/-- The keyword component of `score_item` (dedupe.py lines 156-165). -/
def keywordScoreOf (item : NewsItem) : ℚ :=
  let combined := lowerStr item.title ++ " " ++ lowerStr item.summary
  let keyword_matches :=
    (SCORING_KEYWORDS.filter (fun kw => hasSubstr (lowerStr kw).data combined.data)).length
  min 15 ((keyword_matches * 3 : ℕ) : ℚ)

/-- dedupe.py lines 110-167, `score_item`: the four components accumulated
into `score`.  `reference_time` (defaulted to `now` in Python) is passed
explicitly. -/
def score_item (item : NewsItem) (reference_time : PyDatetime)
    (lookback_hours : ℚ) : ℚ :=
  ratAdd
    (ratAdd
      (ratAdd (recencyScore item.published reference_time lookback_hours)
        (credibilityGet item.source))
      (numbersScoreOf item))
    (keywordScoreOf item)

/-- The comparison handed to Python's stable `sorted(..., key=score,
reverse=True)`: descending by score, equal scores keep input order. -/
def scoreLE (a b : NewsItem) : Bool := decide (b.score ≤ a.score)

/-- The scoring loop of `score_and_rank_items` (dedupe.py lines 188-189):
each item's `score` field is written in place. -/
def scoreAll (items : List NewsItem) (reference_time : PyDatetime)
    (lookback_hours : ℚ) : List NewsItem :=
  items.map (fun item => { item with score := score_item item reference_time lookback_hours })

/-- dedupe.py lines 170-200, `score_and_rank_items`.  The log line evaluates
`top_items[-1].score` and `top_items[0].score` inside an f-string, which
raises `IndexError` when `top_items` is empty; that raise is modelled by
`none`.  `reference_time = datetime.now(timezone.utc)` is passed explicitly. -/
def score_and_rank_items (items : List NewsItem) (top_n : Nat) (lookback_hours : ℚ)
    (reference_time : PyDatetime) : Option (List NewsItem) :=
  let scored := scoreAll items reference_time lookback_hours
  let sorted_items := scored.mergeSort scoreLE
  let top_items := sorted_items.take top_n
  match top_items with
  | [] => none
  | _ => some top_items

/-- dedupe.py lines 203-229, `process_items`. -/
def process_items (items : List NewsItem) (top_n : Nat) (similarity_threshold : ℚ)
    (lookback_hours : ℚ) (reference_time : PyDatetime) : Option (List NewsItem) :=
  let unique_items := deduplicate_items items similarity_threshold
  score_and_rank_items unique_items top_n lookback_hours reference_time

/-! ## Statement-level definitions

A generic well-formed URL, built from components, over which the
universally-quantified normalization claims are stated. -/

/-- Assemble `scheme://host path ?query` (query omitted when empty). -/
def mkUrl (scheme host path query : String) : String :=
  scheme ++ "://" ++ host ++ path ++ (if query = "" then "" else "?" ++ query)

/-- A scheme the parser recognises: nonempty, ASCII letters. -/
def SchemeOK (s : String) : Prop :=
  s.data ≠ [] ∧ ∀ c ∈ s.data, c.isAlpha = true

/-- A host whose characters neither terminate the netloc nor get removed by
the WHATWG cleanup. -/
def HostOK (h : String) : Prop :=
  ∀ c ∈ h.data, isNetlocEnd c = false ∧ 0x20 < c.toNat ∧
    c ≠ '\t' ∧ c ≠ '\r' ∧ c ≠ '\n'

/-- A path that is empty or slash-led, free of the query / fragment / params
delimiters and of the WHATWG-removed characters. -/
def PathOK (p : String) : Prop :=
  (p.data = [] ∨ p.data.head? = some '/') ∧
    ∀ c ∈ p.data, c ≠ '?' ∧ c ≠ '#' ∧ c ≠ ';' ∧ c ≠ '\t' ∧ c ≠ '\r' ∧ c ≠ '\n'

/-- Query pairs whose keys and values are plain alphanumerics (so that
percent-coding is the identity on them) with nonempty keys. -/
def PairsOK (ps : List (List Char × List Char)) : Prop :=
  ∀ kv ∈ ps, kv.1 ≠ [] ∧
    (∀ c ∈ kv.1, c.isAlphanum = true) ∧ ∀ c ∈ kv.2, c.isAlphanum = true

/-- A raw query string: alphanumerics and the `&` / `=` separators. -/
def QueryOK (q : String) : Prop :=
  ∀ c ∈ q.data, c.isAlphanum = true ∨ c = '&' ∨ c = '='

instance (s : String) : Decidable (SchemeOK s) := instDecidableAnd

instance (h : String) : Decidable (HostOK h) := List.decidableBAll _ _

instance (p : String) : Decidable (PathOK p) := instDecidableAnd

instance (ps : List (List Char × List Char)) : Decidable (PairsOK ps) :=
  List.decidableBAll _ _

instance (q : String) : Decidable (QueryOK q) := List.decidableBAll _ _

/-- The raw query string obtained by joining `key=value` pairs with `&`. -/
def encodeQueryL (ps : List (List Char × List Char)) : List Char :=
  List.intercalate ['&'] (ps.map (fun kv => kv.1 ++ '=' :: kv.2))

def encodeQuery (ps : List (List Char × List Char)) : String :=
  String.mk (encodeQueryL ps)

/-- Whether a query key is on the deny-list of `normalize_url`
(case-insensitive comparison, as the code lowercases the key). -/
def isTrackingKey (k : List Char) : Bool := decide (lowerChars k ∈ trackingParams)

/-- Flatten the insertion-ordered multidict back to its pair sequence, in the
order `urlencode(..., doseq=True)` serialises it. -/
def flattenGroups (g : List (List Char × List (List Char))) : List (List Char × List Char) :=
  g.flatMap (fun kvs => kvs.2.map (fun v => (kvs.1, v)))

/-- The text position right after a `\b` in the `[\d.]+[BMK]\b` pattern:
either the end of the text or a non-word character. -/
def WordBoundary (post : List Char) : Prop :=
  match post with
  | [] => True
  | c :: _ => isWordChar c = false

instance : (post : List Char) → Decidable (WordBoundary post)
  | [] => .isTrue trivial
  | c :: _ => inferInstanceAs (Decidable (isWordChar c = false))

/-! Concrete items for the scenario parts of the claims.  All are published
at the epoch with an explicit UTC offset; dedup never reads `published`. -/

def epochUTC : PyDatetime := ⟨0, some 0⟩

/-- Scenario item (spec §8): Hacker News copy of the GPT-5 story. -/
def scenHN : NewsItem :=
  ⟨"OpenAI announces GPT-5", "https://a.com/x", "Hacker News", epochUTC, "", "", [], 0⟩

/-- Scenario item (spec §8): OpenAI Blog copy of the GPT-5 story. -/
def scenOAI : NewsItem :=
  ⟨"OpenAI announces GPT-5!", "https://b.com/x", "OpenAI Blog", epochUTC, "", "", [], 0⟩

/-! Items witnessing that fuzzy dedup is not idempotent: `cexC`'s title is
0.86-similar to each of `cexA`'s and `cexB`'s, which are only 0.76-similar
to each other; `cexC` outranks both on credibility. -/

def cexA : NewsItem :=
  ⟨"openai announces gpt-5zzzzzzz", "https://a.com/1", "Hacker News", epochUTC, "", "", [], 0⟩

def cexB : NewsItem :=
  ⟨"qqqqqqqopenai announces gpt-5", "https://a.com/2", "Hacker News", epochUTC, "", "", [], 0⟩

def cexC : NewsItem :=
  ⟨"openai announces gpt-5", "https://a.com/3", "OpenAI Blog", epochUTC, "", "", [], 0⟩

/-- A minimal item for witness instantiations. -/
def wItem : NewsItem := ⟨"a", "u", "s", epochUTC, "", "", [], 0⟩

/-- A concrete item whose title carries the token `$5B` after other numeric
text, for the numeric-signal part of the overlap analysis. -/
def item9 : NewsItem := ⟨"2024 model costs $5B", "u", "s", epochUTC, "", "", [], 0⟩

/-! # Theorems -/

set_option maxRecDepth 200000

/-! ## The computable rational operations agree with the field operations -/

theorem den_intCast_ne_zero (a : ℚ) : (a.den : ℤ) ≠ 0 :=
  Int.natCast_ne_zero.mpr a.den_nz

theorem ratAdd_eq (a b : ℚ) : ratAdd a b = a + b := by
  conv_rhs => rw [← Rat.num_divInt_den a, ← Rat.num_divInt_den b]
  rw [Rat.divInt_add_divInt _ _ (den_intCast_ne_zero a) (den_intCast_ne_zero b)]
  rfl

theorem ratSub_eq (a b : ℚ) : ratSub a b = a - b := by
  conv_rhs => rw [← Rat.num_divInt_den a, ← Rat.num_divInt_den b]
  rw [Rat.divInt_sub_divInt _ _ (den_intCast_ne_zero a) (den_intCast_ne_zero b)]
  rfl

theorem ratMul_eq (a b : ℚ) : ratMul a b = a * b := by
  conv_rhs => rw [← Rat.num_divInt_den a, ← Rat.num_divInt_den b]
  rw [Rat.divInt_mul_divInt _ _ (den_intCast_ne_zero a) (den_intCast_ne_zero b)]
  rfl

theorem ratDiv_eq (a b : ℚ) : ratDiv a b = a / b := by
  rcases eq_or_ne b 0 with rfl | hb
  · have h0 : ratDiv a 0 = 0 := by
      show Rat.divInt (a.num * (0 : ℚ).den) (a.den * (0 : ℚ).num) = 0
      norm_num
    rw [h0, div_zero]
  · have hbn : b.num ≠ 0 := Rat.num_ne_zero.mpr hb
    have key : ratDiv a b = (Rat.divInt a.num a.den) * (Rat.divInt b.den b.num) :=
      (Rat.divInt_mul_divInt _ _ (den_intCast_ne_zero a) hbn).symm
    rw [key, Rat.num_divInt_den, div_eq_mul_inv, Rat.inv_def']

/-! ## Deduplication only ever keeps input items -/

theorem mem_urlDedupGo {x : NewsItem} :
    ∀ {items : List NewsItem} {seen : List String}, x ∈ urlDedupGo items seen → x ∈ items := by
  intro items
  induction items with
  | nil => intro seen h; simp [urlDedupGo] at h
  | cons item rest ih =>
    intro seen h
    rw [urlDedupGo] at h
    split at h
    · exact List.mem_cons_of_mem _ (ih h)
    · rcases List.mem_cons.mp h with rfl | h2
      · exact List.mem_cons_self _ _
      · exact List.mem_cons_of_mem _ (ih h2)

theorem mem_fuzzyStep {x item : NewsItem} {st : ℚ} {acc : List NewsItem}
    (h : x ∈ fuzzyStep st acc item) : x ∈ acc ∨ x = item := by
  rcases hfs : firstSimilar st item acc with _ | existing
  · simp only [fuzzyStep, hfs] at h
    rcases List.mem_append.mp h with h1 | h1
    · exact Or.inl h1
    · exact Or.inr (List.mem_singleton.mp h1)
  · simp only [fuzzyStep, hfs] at h
    by_cases hc : credibilityGet existing.source < credibilityGet item.source
    · rw [if_pos hc] at h
      rcases List.mem_append.mp h with h1 | h1
      · exact Or.inl ((acc.erase_sublist existing).mem h1)
      · exact Or.inr (List.mem_singleton.mp h1)
    · rw [if_neg hc] at h
      exact Or.inl h

theorem mem_foldl_fuzzyStep {x : NewsItem} {st : ℚ} :
    ∀ {l acc : List NewsItem}, x ∈ List.foldl (fuzzyStep st) acc l → x ∈ acc ∨ x ∈ l := by
  intro l
  induction l with
  | nil => intro acc h; exact Or.inl h
  | cons item rest ih =>
    intro acc h
    rcases ih h with h1 | h1
    · rcases mem_fuzzyStep h1 with h2 | rfl
      · exact Or.inl h2
      · exact Or.inr (List.mem_cons_self _ _)
    · exact Or.inr (List.mem_cons_of_mem _ h1)

theorem mem_deduplicate_items {x : NewsItem} {items : List NewsItem} {st : ℚ}
    (h : x ∈ deduplicate_items items st) : x ∈ items := by
  rw [deduplicate_items] at h
  split at h
  · simp at h
  · rcases mem_foldl_fuzzyStep h with h1 | h1
    · simp at h1
    · exact mem_urlDedupGo h1

/-- C1: on the empty input list, `deduplicate_items` returns the empty list,
but `score_and_rank_items` (and hence `process_items`) does not return an
empty list: the log f-string evaluates `top_items[-1].score`, which raises
`IndexError` on the empty list — modelled by `none` — for every `top_n`,
`lookback_hours` and reference time. -/
theorem C1_empty_pipeline :
    (∀ st : ℚ, deduplicate_items [] st = []) ∧
    (∀ (top_n : Nat) (L : ℚ) (reference_time : PyDatetime),
      score_and_rank_items [] top_n L reference_time = none) ∧
    (∀ (top_n : Nat) (st L : ℚ) (reference_time : PyDatetime),
      process_items [] top_n st L reference_time = none) := by
  refine ⟨fun st => rfl, fun top_n L r => ?_, fun top_n st L r => ?_⟩
  · simp [score_and_rank_items, scoreAll, List.mergeSort]
  · simp [process_items, deduplicate_items, score_and_rank_items, scoreAll, List.mergeSort]

/-- C2 counterexample: deduplication is not idempotent as sets.  On
`[cexA, cexB, cexC]` the first pass keeps `[cexB, cexC]` (`cexC` replaces
`cexA`, its first 0.85-similar match, and is appended at the end without
being compared to `cexB`); the second pass then removes `cexB`, which is
0.86-similar to `cexC`.  So `cexB` is in `deduplicate(X)` but not in
`deduplicate(deduplicate(X))`. -/
theorem C2_not_idempotent_counterexample :
    cexB ∈ deduplicate_items [cexA, cexB, cexC] TITLE_SIMILARITY_THRESHOLD ∧
    cexB ∉ deduplicate_items
      (deduplicate_items [cexA, cexB, cexC] TITLE_SIMILARITY_THRESHOLD)
      TITLE_SIMILARITY_THRESHOLD := by
  decide

/-- C2 (amended): one inclusion does hold — every item of
`deduplicate(deduplicate(X))` is an item of `deduplicate(X)` (the second
pass only drops items), but the reverse inclusion can fail, so the two are
not always equal as sets. -/
theorem C2_dedup_dedup_subset (st : ℚ) (items : List NewsItem) (x : NewsItem)
    (h : x ∈ deduplicate_items (deduplicate_items items st) st) :
    x ∈ deduplicate_items items st :=
  mem_deduplicate_items h

theorem C2_dedup_dedup_subset_witness :
    wItem ∈ deduplicate_items [wItem] TITLE_SIMILARITY_THRESHOLD :=
  C2_dedup_dedup_subset TITLE_SIMILARITY_THRESHOLD [wItem] wItem (by decide)

/-! ## The inner fuzzy scan is first-match search -/

theorem firstSimilar_eq_find (st : ℚ) (item : NewsItem) :
    ∀ out : List NewsItem,
      firstSimilar st item out =
        out.find? (fun e => decide (st ≤ title_similarity item.title e.title)) := by
  intro out
  induction out with
  | nil => rfl
  | cons e rest ih =>
    by_cases hc : st ≤ title_similarity item.title e.title
    · simp [firstSimilar, List.find?_cons, hc]
    · simp [firstSimilar, List.find?_cons, hc, ih]

/-- C5: in the fuzzy stage, an incoming item is compared only against the
accumulated output, and the scan is first-match: when the first entry whose
similarity reaches the threshold exists, a strictly more credible incoming
item removes that entry and is appended at the end of the output (not
reinserted at the removed position), and otherwise the incoming item is
discarded; with no match the item is appended.  On the two-item GPT-5
scenario exactly one item survives and its source is "OpenAI Blog". -/
theorem C5_fuzzy_first_match_semantics :
    (∀ (st : ℚ) (out : List NewsItem) (item existing : NewsItem),
        out.find? (fun e => decide (st ≤ title_similarity item.title e.title)) = some existing →
        fuzzyStep st out item =
          if credibilityGet existing.source < credibilityGet item.source
          then out.erase existing ++ [item]
          else out) ∧
    (∀ (st : ℚ) (out : List NewsItem) (item : NewsItem),
        out.find? (fun e => decide (st ≤ title_similarity item.title e.title)) = none →
        fuzzyStep st out item = out ++ [item]) ∧
    deduplicate_items [scenHN, scenOAI] TITLE_SIMILARITY_THRESHOLD = [scenOAI] ∧
    scenOAI.source = "OpenAI Blog" := by
  refine ⟨?_, ?_, by decide, rfl⟩
  · intro st out item existing hfind
    rw [← firstSimilar_eq_find] at hfind
    simp only [fuzzyStep, hfind]
  · intro st out item hfind
    rw [← firstSimilar_eq_find] at hfind
    simp only [fuzzyStep, hfind]

theorem C5_fuzzy_first_match_semantics_witness :
    fuzzyStep TITLE_SIMILARITY_THRESHOLD [scenHN] scenOAI =
      if credibilityGet scenHN.source < credibilityGet scenOAI.source
      then List.erase [scenHN] scenHN ++ [scenOAI]
      else [scenHN] :=
  C5_fuzzy_first_match_semantics.1 TITLE_SIMILARITY_THRESHOLD [scenHN] scenOAI scenHN
    (by decide)

/-- C6: the recency component of `score_item` is
`max(0, 30 * (1 - hours_old / lookback_hours))` with `hours_old` the
difference of the UTC instants in hours (naive timestamps reinterpreted as
UTC); it is never negative, reaches exactly 0 at `lookback_hours` of age, is
unclamped above 30 (a future-dated item scores strictly above 30), and
`score_item` is that component plus the credibility, numbers and keyword
components. -/
theorem C6_recency_component :
    ∀ (published reference_time : PyDatetime) (L : ℚ), 0 < L →
      (hours_since published reference_time =
        (instantSeconds (asUTCIfNaive reference_time)
          - instantSeconds (asUTCIfNaive published)) / 3600) ∧
      (∀ w : ℚ, hours_since ⟨w, none⟩ reference_time = hours_since ⟨w, some 0⟩ reference_time) ∧
      (recencyScore published reference_time L
        = max 0 (30 * (1 - hours_since published reference_time / L))) ∧
      0 ≤ recencyScore published reference_time L ∧
      (hours_since published reference_time = L →
        recencyScore published reference_time L = 0) ∧
      (instantSeconds (asUTCIfNaive reference_time)
          < instantSeconds (asUTCIfNaive published) →
        30 < recencyScore published reference_time L) ∧
      (∀ item : NewsItem,
        score_item item reference_time L
          = recencyScore item.published reference_time L + credibilityGet item.source
            + numbersScoreOf item + keywordScoreOf item) := by
  intro published reference_time L hL
  have hhs : hours_since published reference_time =
      (instantSeconds (asUTCIfNaive reference_time)
        - instantSeconds (asUTCIfNaive published)) / 3600 := by
    rw [hours_since, ratDiv_eq, ratSub_eq]
  have hrs : recencyScore published reference_time L
      = max 0 (30 * (1 - hours_since published reference_time / L)) := by
    rw [recencyScore, ratMul_eq, ratSub_eq, ratDiv_eq]
  refine ⟨hhs, ?_, hrs, le_max_left _ _, ?_, ?_, ?_⟩
  · intro w
    simp [hours_since, asUTCIfNaive]
  · intro hage
    rw [hrs, hage, div_self hL.ne']
    norm_num
  · intro hfuture
    rw [hrs]
    have hneg : hours_since published reference_time < 0 := by
      rw [hhs]
      apply div_neg_of_neg_of_pos _ (by norm_num)
      linarith
    have : (1 : ℚ) < 1 - hours_since published reference_time / L := by
      have : hours_since published reference_time / L < 0 :=
        div_neg_of_neg_of_pos hneg hL
      linarith
    have h30 : (30 : ℚ) < 30 * (1 - hours_since published reference_time / L) := by
      nlinarith
    exact lt_of_lt_of_le h30 (le_max_right _ _)
  · intro item
    rw [score_item, ratAdd_eq, ratAdd_eq, ratAdd_eq]

theorem C6_recency_component_witness :
    0 ≤ recencyScore epochUTC epochUTC 24 :=
  (C6_recency_component epochUTC epochUTC 24 (by norm_num)).2.2.2.1

/-! ## Ranking -/

theorem scoreLE_trans : ∀ a b c : NewsItem, scoreLE a b → scoreLE b c → scoreLE a c := by
  intro a b c h1 h2
  simp only [scoreLE, decide_eq_true_eq] at h1 h2 ⊢
  exact le_trans h2 h1

theorem scoreLE_total : ∀ a b : NewsItem, scoreLE a b || scoreLE b a := by
  intro a b
  simp only [scoreLE, Bool.or_eq_true, decide_eq_true_eq]
  exact le_total b.score a.score

/-- Whenever `score_and_rank_items` returns, the returned list is the sorted
and truncated scored list. -/
theorem score_and_rank_eq_some {items : List NewsItem} {top_n : Nat} {L : ℚ}
    {reference_time : PyDatetime} {out : List NewsItem}
    (h : score_and_rank_items items top_n L reference_time = some out) :
    out = (List.mergeSort (scoreAll items reference_time L) scoreLE).take top_n := by
  rcases htop : (List.mergeSort (scoreAll items reference_time L) scoreLE).take top_n
    with _ | ⟨a, t⟩ <;> simp only [score_and_rank_items, htop] at h
  · exact absurd h (by simp)
  · exact (Option.some.inj h).symm

/-- C7: for a nonempty input and positive `top_n`, `score_and_rank_items`
returns the stably sorted scored list truncated to `top_n`: at most `top_n`
items, non-increasing in score, equal-score items keeping their relative
input order, and the whole list (sorted) when fewer than `top_n` were
supplied. -/
theorem C7_rank_sorted_truncated :
    ∀ (items : List NewsItem) (top_n : Nat) (L : ℚ) (reference_time : PyDatetime),
      items ≠ [] → 0 < top_n →
      ∃ out, score_and_rank_items items top_n L reference_time = some out ∧
        out = (List.mergeSort (scoreAll items reference_time L) scoreLE).take top_n ∧
        out.length ≤ top_n ∧
        List.Pairwise (fun a b : NewsItem => b.score ≤ a.score) out ∧
        (∀ a b : NewsItem, a.score = b.score →
          List.Sublist [a, b] (scoreAll items reference_time L) →
          List.Sublist [a, b] (List.mergeSort (scoreAll items reference_time L) scoreLE)) ∧
        (items.length ≤ top_n → List.Perm out (scoreAll items reference_time L)) := by
  intro items top_n L reference_time hne htop
  have hlen : 0 < ((List.mergeSort (scoreAll items reference_time L) scoreLE).take top_n).length := by
    rw [List.length_take, List.length_mergeSort]
    have h1 : 0 < items.length := List.length_pos.mpr hne
    have h2 : (scoreAll items reference_time L).length = items.length := by
      simp [scoreAll]
    omega
  rcases htake : (List.mergeSort (scoreAll items reference_time L) scoreLE).take top_n
    with _ | ⟨a, t⟩
  · rw [htake] at hlen
    simp at hlen
  · refine ⟨a :: t, ?_, rfl, ?_, ?_, ?_, ?_⟩
    · simp only [score_and_rank_items, htake]
    · rw [← htake]
      exact le_trans (List.length_take_le _ _) (le_refl _)
    · rw [← htake]
      have hsorted := List.sorted_mergeSort scoreLE_trans scoreLE_total
        (scoreAll items reference_time L)
      have hsorted2 : List.Pairwise (fun a b : NewsItem => b.score ≤ a.score)
          (List.mergeSort (scoreAll items reference_time L) scoreLE) := by
        refine hsorted.imp ?_
        intro a b hab
        simpa [scoreLE] using hab
      exact hsorted2.sublist (List.take_sublist _ _)
    · intro a b hscore hsub
      refine List.pair_sublist_mergeSort scoreLE_trans scoreLE_total ?_ hsub
      simp [scoreLE, hscore]
    · intro hle
      rw [← htake]
      have h2 : (scoreAll items reference_time L).length = items.length := by
        simp [scoreAll]
      rw [List.take_of_length_le (by rw [List.length_mergeSort]; omega)]
      exact List.mergeSort_perm _ _

theorem C7_rank_sorted_truncated_witness :
    (score_and_rank_items [wItem] 1 24 epochUTC).isSome = true := by
  obtain ⟨out, hout, -⟩ :=
    C7_rank_sorted_truncated [wItem] 1 24 epochUTC (by simp) (by norm_num)
  rw [hout]
  rfl

/-- C8: the pipeline never alters any field other than `score`:
deduplication returns input items unchanged, and every item that
`process_items` returns is an input item with only its `score` replaced — in
particular its stored `url` is the pre-normalization original. -/
theorem C8_only_score_is_written :
    (∀ (st : ℚ) (items : List NewsItem) (x : NewsItem),
        x ∈ deduplicate_items items st → x ∈ items) ∧
    (∀ (items : List NewsItem) (top_n : Nat) (st L : ℚ) (reference_time : PyDatetime)
        (out : List NewsItem) (x : NewsItem),
        process_items items top_n st L reference_time = some out → x ∈ out →
        ∃ y ∈ items, x = { y with score := score_item y reference_time L } ∧ x.url = y.url) := by
  constructor
  · intro st items x hx
    exact mem_deduplicate_items hx
  · intro items top_n st L reference_time out x hproc hx
    have hout := score_and_rank_eq_some hproc
    rw [hout] at hx
    have hx2 : x ∈ List.mergeSort (scoreAll (deduplicate_items items st) reference_time L) scoreLE :=
      (List.take_sublist _ _).mem hx
    rw [List.mem_mergeSort] at hx2
    rw [scoreAll, List.mem_map] at hx2
    obtain ⟨y, hy, rfl⟩ := hx2
    exact ⟨y, mem_deduplicate_items hy, rfl, rfl⟩

theorem C8_only_score_is_written_witness :
    wItem ∈ ([wItem] : List NewsItem) :=
  C8_only_score_is_written.1 TITLE_SIMILARITY_THRESHOLD [wItem] wItem (by decide)

/-- C10: `score_and_rank_items` writes every input item's score (including
the items beyond the returned top-N) before sorting — the scored working
list is exactly the input items with `score` overwritten, position by
position — and whatever it returns is a sublist of a permutation of that
scored list, so no item is created or duplicated. -/
theorem C10_scores_written_output_from_input :
    ∀ (items : List NewsItem) (top_n : Nat) (L : ℚ) (reference_time : PyDatetime),
      (∀ i : Nat, (scoreAll items reference_time L)[i]? =
        (items[i]?).map (fun y => { y with score := score_item y reference_time L })) ∧
      (∀ out, score_and_rank_items items top_n L reference_time = some out →
        List.Sublist out (List.mergeSort (scoreAll items reference_time L) scoreLE) ∧
        List.Perm (List.mergeSort (scoreAll items reference_time L) scoreLE)
          (scoreAll items reference_time L)) := by
  intro items top_n L reference_time
  constructor
  · intro i
    simp [scoreAll]
  · intro out hout
    rw [score_and_rank_eq_some hout]
    exact ⟨List.take_sublist _ _, List.mergeSort_perm _ _⟩

theorem C10_scores_written_output_from_input_witness :
    List.Sublist [{ wItem with score := 35 }]
        (List.mergeSort (scoreAll [wItem] epochUTC 24) scoreLE) ∧
      List.Perm (List.mergeSort (scoreAll [wItem] epochUTC 24) scoreLE)
        (scoreAll [wItem] epochUTC 24) :=
  (C10_scores_written_output_from_input [wItem] 1 24 epochUTC).2
    [{ wItem with score := 35 }] (by
      have hs : score_item wItem epochUTC 24 = 35 := by decide
      simp [score_and_rank_items, scoreAll, hs])

/-! ## Character-class facts for the URL round-trip -/

theorem alphanum_ne_special {c : Char} (h : c.isAlphanum = true) :
    c ≠ ':' ∧ c ≠ '/' ∧ c ≠ '?' ∧ c ≠ '#' ∧ c ≠ ';' ∧ c ≠ '&' ∧ c ≠ '=' ∧
      c ≠ '%' ∧ c ≠ '+' ∧ c ≠ '\t' ∧ c ≠ '\r' ∧ c ≠ '\n' := by
  refine ⟨?_, ?_, ?_, ?_, ?_, ?_, ?_, ?_, ?_, ?_, ?_, ?_⟩ <;>
    · rintro rfl
      revert h
      decide

theorem alpha_isAlphanum {c : Char} (h : c.isAlpha = true) : c.isAlphanum = true := by
  simp [Char.isAlphanum, h]

theorem alpha_toNat_big {c : Char} (h : c.isAlpha = true) : 0x20 < c.toNat := by
  simp only [Char.isAlpha, Char.isUpper, Char.isLower, Bool.or_eq_true, Bool.and_eq_true,
    decide_eq_true_eq] at h
  rcases h with ⟨h1, _⟩ | ⟨h1, _⟩
  · have h2 : (65 : UInt32).toNat ≤ c.val.toNat := h1
    have h3 : c.val.toNat = c.toNat := rfl
    norm_num at h2
    omega
  · have h2 : (97 : UInt32).toNat ≤ c.val.toNat := h1
    have h3 : c.val.toNat = c.toNat := rfl
    norm_num at h2
    omega

theorem queryChar_ne {c : Char} (h : c.isAlphanum = true ∨ c = '&' ∨ c = '=') :
    c ≠ ':' ∧ c ≠ '/' ∧ c ≠ '?' ∧ c ≠ '#' ∧ c ≠ '\t' ∧ c ≠ '\r' ∧ c ≠ '\n' := by
  rcases h with h | rfl | rfl
  · have := alphanum_ne_special h
    tauto
  · refine ⟨?_, ?_, ?_, ?_, ?_, ?_, ?_⟩ <;> decide
  · refine ⟨?_, ?_, ?_, ?_, ?_, ?_, ?_⟩ <;> decide

/-! ## Splitter lemmas -/

theorem splitAtFirst_not_mem {c : Char} : ∀ {l : List Char}, c ∉ l → splitAtFirst c l = none
  | [], _ => rfl
  | a :: rest, h => by
    rw [splitAtFirst]
    have ha : ¬(a = c) := fun hac => h (hac ▸ List.mem_cons_self a rest)
    rw [if_neg ha, splitAtFirst_not_mem (fun hc => h (List.mem_cons_of_mem _ hc))]

theorem splitAtFirst_first {c : Char} : ∀ {l1 : List Char} (l2 : List Char), c ∉ l1 →
    splitAtFirst c (l1 ++ c :: l2) = some (l1, l2)
  | [], l2, _ => by simp [splitAtFirst]
  | a :: r, l2, h => by
    rw [List.cons_append, splitAtFirst]
    have ha : ¬(a = c) := fun hac => h (hac ▸ List.mem_cons_self a r)
    rw [if_neg ha, splitAtFirst_first l2 (fun hc => h (List.mem_cons_of_mem _ hc))]

theorem spanNot_exact {p : Char → Bool} : ∀ {l1 l2 : List Char},
    (∀ x ∈ l1, p x = false) →
    (l2 = [] ∨ ∃ d t, l2 = d :: t ∧ p d = true) →
    spanNot p (l1 ++ l2) = (l1, l2)
  | [], l2, _, h2 => by
    rcases h2 with rfl | ⟨d, t, rfl, hd⟩
    · rfl
    · simp [spanNot, hd]
  | a :: r, l2, h1, h2 => by
    rw [List.cons_append, spanNot]
    have ha : p a = false := h1 a (List.mem_cons_self a r)
    rw [ha]
    simp only [Bool.false_eq_true, if_false]
    rw [spanNot_exact (fun x hx => h1 x (List.mem_cons_of_mem _ hx)) h2]

theorem filter_unremoved {l : List Char}
    (h : ∀ c ∈ l, c ≠ '\t' ∧ c ≠ '\r' ∧ c ≠ '\n') :
    l.filter (fun c => !(c == '\t' || c == '\r' || c == '\n')) = l := by
  apply List.filter_eq_self.mpr
  intro a ha
  obtain ⟨h1, h2, h3⟩ := h a ha
  simp [h1, h2, h3]

/-! ## Parsing a well-formed constructed URL recovers its components -/

theorem data_mkUrl (s h p q : String) :
    (mkUrl s h p q).data =
      s.data ++ ':' :: '/' :: '/' ::
        (h.data ++ (p.data ++ (if q.data = [] then [] else '?' :: q.data))) := by
  rw [mkUrl]
  by_cases hq : q = ""
  · subst hq
    simp [String.data_append]
  · have hqd : q.data ≠ [] := by
      intro hd
      apply hq
      cases q with
      | mk d => exact congrArg String.mk hd
    rw [if_neg hq]
    simp [String.data_append, hqd]

theorem splitScheme_exact {sd rest : List Char} (h1 : sd ≠ [])
    (h2 : ∀ c ∈ sd, c.isAlpha = true) :
    splitScheme (sd ++ ':' :: rest) = (lowerChars sd, rest) := by
  have hmem : ':' ∉ sd := fun hin => absurd (h2 _ hin) (by decide)
  rw [splitScheme, splitAtFirst_first rest hmem]
  cases sd with
  | nil => exact absurd rfl h1
  | cons c0 r =>
    have hc0 : c0.isAlpha = true := h2 _ (List.mem_cons_self _ _)
    have hrest : r.all isSchemeChar = true := by
      rw [List.all_eq_true]
      intro c hc
      simp [isSchemeChar, alpha_isAlphanum (h2 c (List.mem_cons_of_mem _ hc))]
    simp [hc0, hrest]

theorem pyUrlsplit_mkUrl {s h p q : String} (hs : SchemeOK s) (hh : HostOK h)
    (hp : PathOK p) (hq : QueryOK q) :
    pyUrlsplit (mkUrl s h p q).data =
      ⟨lowerChars s.data, h.data, p.data, q.data, []⟩ := by
  obtain ⟨hs1, hs2⟩ := hs
  obtain ⟨hp1, hp2⟩ := hp
  have hdata := data_mkUrl s h p q
  have hqtail : ∀ c ∈ (if q.data = [] then ([] : List Char) else '?' :: q.data),
      c = '?' ∨ (c.isAlphanum = true ∨ c = '&' ∨ c = '=') := by
    intro c hc
    rcases hq2 : q.data with _ | ⟨d, t⟩ <;> rw [hq2] at hc
    · simp at hc
    · simp only [reduceCtorEq, if_false] at hc
      rcases List.mem_cons.mp hc with rfl | hc2
      · exact Or.inl rfl
      · exact Or.inr (hq c (hq2 ▸ hc2))
  -- every character of the constructed URL
  have hall : ∀ c ∈ (mkUrl s h p q).data,
      c.isAlpha = true ∨ c = ':' ∨ c = '/' ∨ c = '?' ∨
        (∃ hc : c ∈ h.data, True) ∨ (∃ hc : c ∈ p.data, True) ∨
        (c.isAlphanum = true ∨ c = '&' ∨ c = '=') := by
    intro c hc
    rw [hdata] at hc
    rcases List.mem_append.mp hc with hc1 | hc2
    · exact Or.inl (hs2 c hc1)
    · rcases List.mem_cons.mp hc2 with rfl | hc3
      · exact Or.inr (Or.inl rfl)
      · rcases List.mem_cons.mp hc3 with rfl | hc4
        · exact Or.inr (Or.inr (Or.inl rfl))
        · rcases List.mem_cons.mp hc4 with rfl | hc5
          · exact Or.inr (Or.inr (Or.inl rfl))
          · rcases List.mem_append.mp hc5 with hc6 | hc7
            · exact Or.inr (Or.inr (Or.inr (Or.inr (Or.inl ⟨hc6, trivial⟩))))
            · rcases List.mem_append.mp hc7 with hc8 | hc9
              · exact Or.inr (Or.inr (Or.inr (Or.inr (Or.inr (Or.inl ⟨hc8, trivial⟩)))))
              · rcases hqtail c hc9 with rfl | hval
                · exact Or.inr (Or.inr (Or.inr (Or.inl rfl)))
                · exact Or.inr (Or.inr (Or.inr (Or.inr (Or.inr (Or.inr hval)))))
  have hnotremoved : ∀ c ∈ (mkUrl s h p q).data, c ≠ '\t' ∧ c ≠ '\r' ∧ c ≠ '\n' := by
    intro c hc
    rcases hall c hc with h1 | rfl | rfl | rfl | ⟨h1, -⟩ | ⟨h1, -⟩ | h1
    · have := alphanum_ne_special (alpha_isAlphanum h1)
      tauto
    · refine ⟨by decide, by decide, by decide⟩
    · refine ⟨by decide, by decide, by decide⟩
    · refine ⟨by decide, by decide, by decide⟩
    · have := hh c h1
      tauto
    · have := hp2 c h1
      tauto
    · have := queryChar_ne h1
      tauto
  -- head of the URL survives the leading strip
  have hhead : ∃ c0 r0, (mkUrl s h p q).data = c0 :: r0 ∧ (c0.toNat ≤ 0x20) = False := by
    rw [hdata]
    cases hsd : s.data with
    | nil => exact absurd hsd hs1
    | cons c0 r0 =>
      refine ⟨c0, _, rfl, ?_⟩
      have := alpha_toNat_big (hs2 c0 (hsd ▸ List.mem_cons_self _ _))
      simp
      omega
  obtain ⟨c0, r0, hcons, hc0big⟩ := hhead
  have hclean :
      (((mkUrl s h p q).data.dropWhile fun c => c.toNat ≤ 0x20).filter
        (fun c => !(c == '\t' || c == '\r' || c == '\n'))) = (mkUrl s h p q).data := by
    rw [hcons, List.dropWhile_cons]
    simp only [decide_eq_true_eq, hc0big, if_false]
    rw [← hcons]
    exact filter_unremoved hnotremoved
  -- now run the parser stages
  have hsplit : splitScheme (mkUrl s h p q).data =
      (lowerChars s.data, '/' :: '/' ::
        (h.data ++ (p.data ++ (if q.data = [] then [] else '?' :: q.data)))) := by
    rw [hdata]
    have hex : splitScheme (s.data ++ ':' :: ('/' :: '/' ::
        (h.data ++ (p.data ++ (if q.data = [] then [] else '?' :: q.data))))) =
        (lowerChars s.data, '/' :: '/' ::
          (h.data ++ (p.data ++ (if q.data = [] then [] else '?' :: q.data)))) :=
      splitScheme_exact hs1 hs2
    simpa using hex
  have hnetloc : spanNot isNetlocEnd
      (h.data ++ (p.data ++ (if q.data = [] then [] else '?' :: q.data))) =
      (h.data, p.data ++ (if q.data = [] then [] else '?' :: q.data)) := by
    apply spanNot_exact
    · intro x hx
      exact (hh x hx).1
    · rcases hpd : p.data with _ | ⟨d, t⟩
      · rcases hqd : q.data with _ | ⟨e, u⟩
        · exact Or.inl rfl
        · simp only [reduceCtorEq, if_false, List.nil_append]
          exact Or.inr ⟨'?', q.data, by rw [hqd], by decide⟩
      · refine Or.inr ⟨d, t ++ _, by rw [List.cons_append], ?_⟩
        have : p.data.head? = some '/' := by
          rcases hp1 with h1 | h1
          · rw [h1] at hpd
            simp at hpd
          · exact h1
        rw [hpd] at this
        simp at this
        rw [this]
        decide
  have hnofrag : splitAtFirst '#'
      (p.data ++ (if q.data = [] then [] else '?' :: q.data)) = none := by
    apply splitAtFirst_not_mem
    intro hin
    rcases List.mem_append.mp hin with h1 | h1
    · exact (hp2 _ h1).2.1 rfl
    · rcases hqtail _ h1 with h2 | h2
      · exact absurd h2 (by decide)
      · exact absurd rfl (queryChar_ne h2).2.2.2.1
  have hquery : splitAtFirst '?'
      (p.data ++ (if q.data = [] then [] else '?' :: q.data)) =
      if q.data = [] then none else some (p.data, q.data) := by
    have hnp : '?' ∉ p.data := fun hin => (hp2 _ hin).1 rfl
    rcases hqd : q.data with _ | ⟨e, u⟩
    · simp only [if_true]
      apply splitAtFirst_not_mem
      intro hin
      rcases List.mem_append.mp hin with h1 | h1
      · exact hnp h1
      · simp at h1
    · simp only [reduceCtorEq, if_false]
      rw [← hqd]
      exact splitAtFirst_first q.data hnp
  rw [pyUrlsplit]
  simp only [hclean, hsplit, hnetloc, hnofrag, hquery]
  rcases hqd : q.data with _ | ⟨e, u⟩ <;> simp [hqd]

theorem pyUrlparse_mkUrl {s h p q : String} (hs : SchemeOK s) (hh : HostOK h)
    (hp : PathOK p) (hq : QueryOK q) :
    pyUrlparse (mkUrl s h p q).data =
      ⟨lowerChars s.data, h.data, p.data, [], q.data, []⟩ := by
  have hnosemi : ';' ∉ p.data := fun hx => (hp.2 _ hx).2.2.1 rfl
  rw [pyUrlparse, pyUrlsplit_mkUrl hs hh hp hq]
  simp [hnosemi]

theorem normalize_mkUrl {s h p q : String} (hs : SchemeOK s) (hh : HostOK h)
    (hp : PathOK p) (hq : QueryOK q) :
    normalize_url (mkUrl s h p q) =
      String.mk (pyUrlunparse (lowerChars (lowerChars s.data))
        (lowerChars (stripWWW h.data)) (rstripSlash p.data) []
        (urlencodeDoseq ((parse_qs q.data).filter
          (fun kv => decide (lowerChars kv.1 ∉ trackingParams)))) []) := by
  rw [normalize_url, pyUrlparse_mkUrl hs hh hp hq]

/-! ## The query pipeline on alphanumeric pairs -/

theorem pctTokens_no_pct : ∀ {l : List Char}, (∀ c ∈ l, c ≠ '%') →
    pctTokens l = l.map Sum.inl := by
  intro l
  induction l using pctTokens.induct with
  | case1 => intro _; rfl
  | case2 => intro hmem; exact absurd rfl (hmem '%' (List.mem_cons_self _ _))
  | case3 => intro hmem; exact absurd rfl (hmem '%' (List.mem_cons_self _ _))
  | case4 c rest hne ih =>
    intro hmem
    rw [List.map_cons, ← ih (fun d hd => hmem d (List.mem_cons_of_mem _ hd))]
    rw [pctTokens]
    exact hne

theorem decodeTokensFuel_inl : ∀ (fuel : Nat) (l : List Char), l.length ≤ fuel →
    decodeTokensFuel fuel (l.map Sum.inl) = l
  | 0, [], _ => rfl
  | _ + 1, [], _ => rfl
  | 0, c :: rest, hle => by simp at hle
  | fuel + 1, c :: rest, hle => by
    rw [List.map_cons, decodeTokensFuel, decodeTokensFuel_inl fuel rest (by simpa using hle)]

theorem map_eq_self_of {α : Type} (l : List α) (f : α → α) (h : ∀ c ∈ l, f c = c) :
    l.map f = l := by
  induction l with
  | nil => rfl
  | cons a t ih =>
    rw [List.map_cons, h a (List.mem_cons_self _ _), ih (fun c hc => h c (List.mem_cons_of_mem _ hc))]

theorem pyUnquotePlus_alnum {l : List Char} (h : ∀ c ∈ l, c.isAlphanum = true) :
    pyUnquotePlus l = l := by
  have hplus : l.map (fun c => if c == '+' then ' ' else c) = l := by
    apply map_eq_self_of
    intro c hc
    have := (alphanum_ne_special (h c hc)).2.2.2.2.2.2.2.2.1
    simp [this]
  rw [pyUnquotePlus, hplus, pctTokens_no_pct
    (fun c hc => (alphanum_ne_special (h c hc)).2.2.2.2.2.2.2.1),
    decodeTokens, List.length_map, decodeTokensFuel_inl _ _ (le_refl _)]

theorem splitOnChar_no_sep {sep : Char} : ∀ {l : List Char}, sep ∉ l →
    splitOnChar sep l = [l]
  | [], _ => rfl
  | c :: rest, h => by
    rw [splitOnChar, splitOnChar_no_sep (fun hin => h (List.mem_cons_of_mem _ hin))]
    have hc : ¬(c = sep) := fun hcs => h (hcs ▸ List.mem_cons_self _ _)
    simp [hc]

theorem splitOnChar_append_sep {sep : Char} : ∀ {f : List Char} (r : List Char), sep ∉ f →
    splitOnChar sep (f ++ sep :: r) = f :: splitOnChar sep r
  | [], r, _ => by
    rw [List.nil_append, splitOnChar]
    simp
  | c :: f1, r, h => by
    rw [List.cons_append, splitOnChar,
      splitOnChar_append_sep r (fun hin => h (List.mem_cons_of_mem _ hin))]
    have hc : ¬(c = sep) := fun hcs => h (hcs ▸ List.mem_cons_self _ _)
    simp [hc]

theorem intercalate_single (sep : List Char) (x : List Char) :
    List.intercalate sep [x] = x := by
  simp [List.intercalate]

theorem intercalate_cons₂ (sep x y : List Char) (ys : List (List Char)) :
    List.intercalate sep (x :: y :: ys) = x ++ sep ++ List.intercalate sep (y :: ys) := by
  simp [List.intercalate, List.intersperse_cons_cons]

theorem mem_field_ne {kv : List Char × List Char} {c : Char}
    (hk : ∀ d ∈ kv.1, d.isAlphanum = true) (hv : ∀ d ∈ kv.2, d.isAlphanum = true)
    (hc : c ∈ kv.1 ++ '=' :: kv.2) : c.isAlphanum = true ∨ c = '=' := by
  rcases List.mem_append.mp hc with h1 | h1
  · exact Or.inl (hk _ h1)
  · rcases List.mem_cons.mp h1 with h2 | h2
    · exact Or.inr h2
    · exact Or.inl (hv _ h2)

theorem field_ne_nil {kv : List Char × List Char} (hk : kv.1 ≠ []) :
    kv.1 ++ '=' :: kv.2 ≠ [] := by
  rcases hx : kv.1 with _ | ⟨c, t⟩
  · exact absurd hx hk
  · simp

/-- Splitting the encoded query on `&` recovers the `key=value` fields. -/
theorem splitOnChar_encodeQueryL : ∀ {ps : List (List Char × List Char)}, ps ≠ [] →
    PairsOK ps →
    splitOnChar '&' (encodeQueryL ps) = ps.map (fun kv => kv.1 ++ '=' :: kv.2) := by
  intro ps
  match ps with
  | [] => intro hne _; exact absurd rfl hne
  | [kv] =>
    intro _ hok
    rw [encodeQueryL, List.map_cons, List.map_nil, intercalate_single]
    apply splitOnChar_no_sep
    intro hin
    obtain ⟨-, hk2, hk3⟩ := hok kv (List.mem_cons_self _ _)
    rcases mem_field_ne hk2 hk3 hin with h1 | h1
    · exact (alphanum_ne_special h1).2.2.2.2.2.1 rfl
    · exact absurd h1.symm (by decide)
  | kv :: kv2 :: rest =>
    intro _ hok
    have htail : splitOnChar '&' (encodeQueryL (kv2 :: rest)) =
        (kv2 :: rest).map (fun kv => kv.1 ++ '=' :: kv.2) :=
      splitOnChar_encodeQueryL (by simp) (fun x hx => hok x (List.mem_cons_of_mem _ hx))
    rw [encodeQueryL, List.map_cons, List.map_cons, intercalate_cons₂, List.append_assoc,
      List.singleton_append]
    have hns : '&' ∉ kv.1 ++ '=' :: kv.2 := by
      intro hin
      obtain ⟨-, hk2, hk3⟩ := hok kv (List.mem_cons_self _ _)
      rcases mem_field_ne hk2 hk3 hin with h1 | h1
      · exact (alphanum_ne_special h1).2.2.2.2.2.1 rfl
      · exact absurd h1.symm (by decide)
    rw [splitOnChar_append_sep _ hns]
    rw [show List.intercalate ['&'] ((fun kv => kv.1 ++ '=' :: kv.2) kv2 ::
        List.map (fun kv => kv.1 ++ '=' :: kv.2) rest) = encodeQueryL (kv2 :: rest) from by
      rw [encodeQueryL, List.map_cons]]
    rw [htail, List.map_cons]

theorem encodeQueryL_cons_ne_nil {kv0 : List Char × List Char}
    {rest : List (List Char × List Char)} (hk : kv0.1 ≠ []) :
    encodeQueryL (kv0 :: rest) ≠ [] := by
  rcases rest with _ | ⟨kv1, rest1⟩
  · rw [encodeQueryL, List.map_cons, List.map_nil, intercalate_single]
    exact field_ne_nil hk
  · rw [encodeQueryL, List.map_cons, List.map_cons, intercalate_cons₂]
    rcases hx : kv0.1 with _ | ⟨c, t⟩
    · exact absurd hx hk
    · simp

/-- The `parse_qsl` fold on well-formed fields keeps exactly the pairs with
nonempty values, unchanged. -/
theorem foldr_fields : ∀ {ps : List (List Char × List Char)}, PairsOK ps →
    List.foldr
      (fun nv acc =>
        if nv = [] then acc
        else
          match splitAtFirst '=' nv with
          | none => acc
          | some (n, v) => if v = [] then acc else (pyUnquotePlus n, pyUnquotePlus v) :: acc)
      [] (ps.map (fun kv => kv.1 ++ '=' :: kv.2)) =
      ps.filter (fun kv => decide (kv.2 ≠ [])) := by
  intro ps hok
  induction ps with
  | nil => rfl
  | cons kv ptail ih =>
    obtain ⟨hk1, hk2, hk3⟩ := hok kv (List.mem_cons_self _ _)
    have hfieldne : kv.1 ++ '=' :: kv.2 ≠ [] := field_ne_nil hk1
    have hsplit : splitAtFirst '=' (kv.1 ++ '=' :: kv.2) = some (kv.1, kv.2) :=
      splitAtFirst_first kv.2
        (fun hin => (alphanum_ne_special (hk2 _ hin)).2.2.2.2.2.2.1 rfl)
    rw [List.map_cons, List.foldr_cons, ih (fun x hx => hok x (List.mem_cons_of_mem _ hx)),
      List.filter_cons]
    simp only [hfieldne, if_false, ite_false, hsplit]
    rcases hv : kv.2 with _ | ⟨c, t⟩
    · simp [hv]
    · rw [← hv]
      have hvne : kv.2 ≠ [] := by rw [hv]; simp
      simp only [hvne, if_false, ite_false, decide_not, decide_True, if_true, ite_true]
      rw [pyUnquotePlus_alnum hk2, pyUnquotePlus_alnum hk3]
      simp [hvne]

/-- `parse_qsl` of the encoded query keeps exactly the pairs with nonempty
values, unchanged. -/
theorem parse_qsl_encodeQueryL : ∀ {ps : List (List Char × List Char)}, PairsOK ps →
    parse_qsl (encodeQueryL ps) =
      ps.filter (fun kv => decide (kv.2 ≠ [])) := by
  intro ps hok
  rcases ps with _ | ⟨kv0, rest⟩
  · rfl
  · have hqne : encodeQueryL (kv0 :: rest) ≠ [] :=
      encodeQueryL_cons_ne_nil (hok kv0 (List.mem_cons_self _ _)).1
    have hfields : (if encodeQueryL (kv0 :: rest) = [] then ([] : List (List Char))
        else splitOnChar '&' (encodeQueryL (kv0 :: rest))) =
        (kv0 :: rest).map (fun kv => kv.1 ++ '=' :: kv.2) := by
      rw [if_neg hqne, splitOnChar_encodeQueryL (by simp) hok]
    rw [parse_qsl, hfields]
    exact foldr_fields hok

/-! ## The insertion-ordered multidict -/

theorem groupPairsFuel_congr : ∀ (f1 f2 : Nat) (l : List (List Char × List Char)),
    l.length ≤ f1 → l.length ≤ f2 → groupPairsFuel f1 l = groupPairsFuel f2 l
  | 0, 0, _, _, _ => rfl
  | 0, _ + 1, l, h1, _ => by
    have hl : l = [] := List.length_eq_zero.mp (Nat.le_zero.mp h1)
    subst hl
    rfl
  | _ + 1, 0, l, _, h2 => by
    have hl : l = [] := List.length_eq_zero.mp (Nat.le_zero.mp h2)
    subst hl
    rfl
  | _ + 1, _ + 1, [], _, _ => rfl
  | f1 + 1, f2 + 1, (k, v) :: rest, h1, h2 => by
    rw [groupPairsFuel, groupPairsFuel]
    congr 1
    have hr1 : rest.length ≤ f1 := by simp at h1; omega
    have hr2 : rest.length ≤ f2 := by simp at h2; omega
    exact groupPairsFuel_congr f1 f2 _ (le_trans (List.length_filter_le _ _) hr1)
      (le_trans (List.length_filter_le _ _) hr2)

theorem groupPairs_cons (k v : List Char) (rest : List (List Char × List Char)) :
    groupPairs ((k, v) :: rest) =
      (k, v :: (rest.filter (fun kv => decide (kv.1 = k))).map (fun kv => kv.2)) ::
        groupPairs (rest.filter (fun kv => decide (kv.1 ≠ k))) := by
  rw [groupPairs, groupPairs, show ((k, v) :: rest).length = rest.length + 1 from rfl,
    groupPairsFuel]
  congr 1
  exact groupPairsFuel_congr _ _ _ (List.length_filter_le _ _) (le_refl _)

theorem groupPairs_filter_key_aux (P : List Char → Bool) :
    ∀ (n : Nat) (l : List (List Char × List Char)), l.length ≤ n →
      groupPairs (l.filter (fun kv => P kv.1)) = (groupPairs l).filter (fun g => P g.1)
  | _, [], _ => rfl
  | 0, (k, v) :: rest, hl => by simp at hl
  | n + 1, (k, v) :: rest, hl => by
    have hrest : rest.length ≤ n := by simp at hl; omega
    have haux := groupPairs_filter_key_aux P n
      (rest.filter (fun kv => decide (kv.1 ≠ k)))
      (le_trans (List.length_filter_le _ _) hrest)
    rw [List.filter_cons, groupPairs_cons k v rest, List.filter_cons]
    by_cases hP : P k = true
    · rw [if_pos hP]
      simp only [hP, if_true, ite_true]
      rw [groupPairs_cons, List.filter_filter, List.filter_filter]
      have hfeq1 : List.filter (fun a => decide (a.1 = k) && P a.1) rest =
          List.filter (fun kv => decide (kv.1 = k)) rest := by
        apply List.filter_congr
        intro kv _
        by_cases hk : kv.1 = k
        · simp [hk, hP]
        · simp [hk]
      have hfeq2 : List.filter (fun a => decide (a.1 ≠ k) && P a.1) rest =
          List.filter (fun a => P a.1 && decide (a.1 ≠ k)) rest := by
        apply List.filter_congr
        intro kv _
        simp [Bool.and_comm]
      rw [hfeq1, hfeq2, ← List.filter_filter, haux]
    · have hP2 : P k = false := by
        rcases hb : P k with _ | _
        · rfl
        · exact absurd hb hP
      rw [if_neg hP]
      simp only [hP2, Bool.false_eq_true, if_false, ite_false]
      rw [← haux, List.filter_filter]
      congr 1
      apply List.filter_congr
      intro kv _
      by_cases hk : kv.1 = k
      · simp [hk, hP2]
      · simp [hk]

theorem groupPairs_filter_key (P : List Char → Bool) (l : List (List Char × List Char)) :
    groupPairs (l.filter (fun kv => P kv.1)) = (groupPairs l).filter (fun g => P g.1) :=
  groupPairs_filter_key_aux P l.length l (le_refl _)

theorem head_group_flatten (k : List Char) (rest : List (List Char × List Char)) :
    ((rest.filter (fun kv => decide (kv.1 = k))).map (fun kv => kv.2)).map
        (fun v2 => (k, v2)) =
      rest.filter (fun kv => decide (kv.1 = k)) := by
  rw [List.map_map]
  apply map_eq_self_of
  intro kv hkv
  have hk : kv.1 = k := by
    have := List.mem_filter.mp hkv
    simpa using this.2
  simp [Function.comp, ← hk]

theorem flattenGroups_cons (g0 : List Char × List (List Char))
    (gs : List (List Char × List (List Char))) :
    flattenGroups (g0 :: gs) = g0.2.map (fun v => (g0.1, v)) ++ flattenGroups gs := by
  rw [flattenGroups, flattenGroups, List.flatMap_cons]

theorem flattenGroups_groupPairs_cons (k v : List Char)
    (rest : List (List Char × List Char)) :
    flattenGroups (groupPairs ((k, v) :: rest)) =
      (k, v) :: (rest.filter (fun kv => decide (kv.1 = k)) ++
        flattenGroups (groupPairs (rest.filter (fun kv => decide (kv.1 ≠ k))))) := by
  rw [groupPairs_cons, flattenGroups_cons, List.map_cons, head_group_flatten, List.cons_append]

theorem mem_flattenGroups_groupPairs :
    ∀ (n : Nat) (l : List (List Char × List Char)), l.length ≤ n →
      ∀ kv ∈ l, kv ∈ flattenGroups (groupPairs l)
  | _, [], _, _, hkv => by simp at hkv
  | 0, (k, v) :: rest, hl, _, _ => by simp at hl
  | n + 1, (k, v) :: rest, hl, kv, hkv => by
    have hrest : rest.length ≤ n := by simp at hl; omega
    rw [flattenGroups_groupPairs_cons]
    rcases List.mem_cons.mp hkv with rfl | hkv2
    · exact List.mem_cons_self _ _
    · apply List.mem_cons_of_mem
      by_cases hk : kv.1 = k
      · exact List.mem_append_left _ (List.mem_filter.mpr ⟨hkv2, by simp [hk]⟩)
      · refine List.mem_append_right _ ?_
        exact mem_flattenGroups_groupPairs n _
          (le_trans (List.length_filter_le _ _) hrest) kv
          (List.mem_filter.mpr ⟨hkv2, by simp [hk]⟩)

theorem mem_of_mem_flattenGroups_groupPairs :
    ∀ (n : Nat) (l : List (List Char × List Char)), l.length ≤ n →
      ∀ kv, kv ∈ flattenGroups (groupPairs l) → kv ∈ l
  | _, [], _, _, hkv => by simp [flattenGroups, groupPairs, groupPairsFuel] at hkv
  | 0, (k, v) :: rest, hl, _, _ => by simp at hl
  | n + 1, (k, v) :: rest, hl, kv, hkv => by
    have hrest : rest.length ≤ n := by simp at hl; omega
    rw [flattenGroups_groupPairs_cons] at hkv
    rcases List.mem_cons.mp hkv with rfl | hkv2
    · exact List.mem_cons_self _ _
    · apply List.mem_cons_of_mem
      rcases List.mem_append.mp hkv2 with h1 | h1
      · exact (List.mem_filter.mp h1).1
      · exact (List.mem_filter.mp
          (mem_of_mem_flattenGroups_groupPairs n _
            (le_trans (List.length_filter_le _ _) hrest) kv h1 : kv ∈ _)).1

theorem groupPairs_keys :
    ∀ (n : Nat) (l : List (List Char × List Char)), l.length ≤ n →
      ∀ x ∈ groupPairs l, ∃ kv ∈ l, kv.1 = x.1
  | _, [], _, _, hx => by simp [groupPairs, groupPairsFuel] at hx
  | 0, (k, v) :: rest, hl, _, _ => by simp at hl
  | n + 1, (k, v) :: rest, hl, x, hx => by
    have hrest : rest.length ≤ n := by simp at hl; omega
    rw [groupPairs_cons] at hx
    rcases List.mem_cons.mp hx with rfl | hx2
    · exact ⟨(k, v), List.mem_cons_self _ _, rfl⟩
    · obtain ⟨kv, hkv, heq⟩ := groupPairs_keys n _
        (le_trans (List.length_filter_le _ _) hrest) x hx2
      exact ⟨kv, List.mem_cons_of_mem _ (List.mem_filter.mp hkv).1, heq⟩

theorem flattenGroups_filter (P : List Char → Bool) :
    ∀ (g : List (List Char × List (List Char))),
      flattenGroups (g.filter (fun x => P x.1)) =
        (flattenGroups g).filter (fun kv => P kv.1) := by
  intro g
  induction g with
  | nil => rfl
  | cons g0 gs ih =>
    rw [List.filter_cons, flattenGroups_cons, List.filter_append]
    by_cases hP : P g0.1
    · simp only [hP, if_true, ite_true]
      rw [flattenGroups_cons, ih]
      congr 1
      symm
      apply List.filter_eq_self.mpr
      intro a ha
      obtain ⟨v, -, rfl⟩ := List.mem_map.mp ha
      simpa using hP
    · have hP2 : P g0.1 = false := by
        rcases hb : P g0.1 with _ | _
        · rfl
        · exact absurd hb hP
      simp only [hP2, Bool.false_eq_true, if_false, ite_false]
      rw [ih]
      have hnil : (g0.2.map (fun v => (g0.1, v))).filter (fun kv => P kv.1) = [] := by
        apply List.filter_eq_nil_iff.mpr
        intro a ha
        obtain ⟨v, -, rfl⟩ := List.mem_map.mp ha
        simpa using hP
      rw [hnil, List.nil_append]

/-! ## Serialising the filtered multidict -/

theorem alphanum_ne_space {c : Char} (h : c.isAlphanum = true) : c ≠ ' ' := by
  rintro rfl
  exact absurd h (by decide)

theorem quotePlus_alnum {l : List Char} (h : ∀ c ∈ l, c.isAlphanum = true) :
    quotePlus l = l := by
  induction l with
  | nil => rfl
  | cons c t ih =>
    have hc := h c (List.mem_cons_self _ _)
    have hc1 : (c == ' ') = false := by
      simp [alphanum_ne_space hc]
    have hc2 : isQuoteSafe c = true := by simp [isQuoteSafe, hc]
    rw [quotePlus, List.flatMap_cons, quotePlusChar, hc1]
    simp only [Bool.false_eq_true, if_false, hc2, if_true, ite_true]
    rw [← quotePlus, ih (fun d hd => h d (List.mem_cons_of_mem _ hd))]
    rfl

/-- When all keys and values are alphanumeric, `urlencode(..., doseq=True)`
writes out the flattened pair sequence verbatim. -/
theorem urlencodeDoseq_eq_encode (g : List (List Char × List (List Char)))
    (hg : ∀ x ∈ g, (∀ c ∈ x.1, c.isAlphanum = true) ∧
      ∀ v ∈ x.2, ∀ c ∈ v, c.isAlphanum = true) :
    urlencodeDoseq g = encodeQueryL (flattenGroups g) := by
  rw [urlencodeDoseq, encodeQueryL, flattenGroups]
  congr 1
  induction g with
  | nil => rfl
  | cons g0 gs ih =>
    rw [List.flatMap_cons, List.flatMap_cons, List.map_append, List.map_map,
      ih (fun x hx => hg x (List.mem_cons_of_mem _ hx))]
    congr 1
    apply List.map_congr_left
    intro v hv
    obtain ⟨hk, hvs⟩ := hg g0 (List.mem_cons_self _ _)
    simp [Function.comp, quotePlus_alnum hk, quotePlus_alnum (hvs v hv)]

/-! ## Host and path helpers -/

theorem hostOK_www {h : String} (hh : HostOK h) : HostOK ("www." ++ h) := by
  intro c hc
  rw [String.data_append] at hc
  rcases List.mem_append.mp hc with h1 | h1
  · have h2 : c ∈ ['w', 'w', 'w', '.'] := h1
    fin_cases h2 <;>
      exact ⟨by decide, by decide, by decide, by decide, by decide⟩
  · exact hh c h1

theorem data_www_append (h : String) :
    ("www." ++ h).data = 'w' :: 'w' :: 'w' :: '.' :: h.data := by
  rw [String.data_append]
  rfl

theorem rstripSlash_append_slash (l : List Char) :
    rstripSlash (l ++ ['/']) = rstripSlash l := by
  rw [rstripSlash, rstripSlash, List.reverse_append]
  simp [List.dropWhile_cons]

theorem pathOK_append_slash {p : String} (hp : PathOK p) : PathOK (p ++ "/") := by
  have hslash : ("/" : String).data = ['/'] := rfl
  constructor
  · right
    rw [String.data_append, hslash]
    rcases hd : p.data with _ | ⟨c, t⟩
    · rfl
    · rcases hp.1 with h1 | h1
      · rw [h1] at hd
        simp at hd
      · rw [hd] at h1
        simp at h1
        simp [h1]
  · intro c hc
    rw [String.data_append, hslash] at hc
    rcases List.mem_append.mp hc with h1 | h1
    · exact hp.2 c h1
    · have h2 : c = '/' := by simpa using h1
      subst h2
      exact ⟨by decide, by decide, by decide, by decide, by decide, by decide⟩

theorem data_append_slash (p : String) : (p ++ "/").data = p.data ++ ['/'] := by
  rw [String.data_append]

theorem queryOK_encodeQuery {ps : List (List Char × List Char)} (hok : PairsOK ps) :
    QueryOK (encodeQuery ps) := by
  intro c hc
  change c ∈ encodeQueryL ps at hc
  induction ps with
  | nil => simp [encodeQueryL, List.intercalate] at hc
  | cons kv rest ih =>
    rcases rest with _ | ⟨kv2, rest2⟩
    · rw [encodeQueryL, List.map_cons, List.map_nil, intercalate_single] at hc
      obtain ⟨-, hk2, hk3⟩ := hok kv (List.mem_cons_self _ _)
      rcases mem_field_ne hk2 hk3 hc with h1 | h1
      · exact Or.inl h1
      · exact Or.inr (Or.inr h1)
    · rw [encodeQueryL, List.map_cons, List.map_cons, intercalate_cons₂, List.append_assoc,
        List.singleton_append] at hc
      rcases List.mem_append.mp hc with h1 | h1
      · obtain ⟨-, hk2, hk3⟩ := hok kv (List.mem_cons_self _ _)
        rcases mem_field_ne hk2 hk3 h1 with h2 | h2
        · exact Or.inl h2
        · exact Or.inr (Or.inr h2)
      · rcases List.mem_cons.mp h1 with rfl | h2
        · exact Or.inr (Or.inl rfl)
        · refine ih (fun x hx => hok x (List.mem_cons_of_mem _ hx)) ?_
          rw [encodeQueryL, List.map_cons]
          exact h2

theorem pairsOK_filter {ps : List (List Char × List Char)} (hok : PairsOK ps)
    (P : List Char × List Char → Bool) : PairsOK (ps.filter P) :=
  fun kv hkv => hok kv (List.mem_filter.mp hkv).1

/-- C3: two well-formed URLs that differ only by the case of the scheme, by
a leading "www." host prefix (absent meaning the bare host does not itself
start with "www."), by deny-listed tracking query parameters, or by a
trailing slash on the path, normalize to equal strings. -/
theorem C3_normalize_equivalences :
    (∀ s1 s2 h p q : String, SchemeOK s1 → SchemeOK s2 → HostOK h → PathOK p → QueryOK q →
        lowerStr s1 = lowerStr s2 →
        normalize_url (mkUrl s1 h p q) = normalize_url (mkUrl s2 h p q)) ∧
    (∀ s h p q : String, SchemeOK s → HostOK h → PathOK p → QueryOK q →
        stripWWW h.data = h.data →
        normalize_url (mkUrl s ("www." ++ h) p q) = normalize_url (mkUrl s h p q)) ∧
    (∀ (s h p : String) (ps : List (List Char × List Char)),
        SchemeOK s → HostOK h → PathOK p → PairsOK ps →
        normalize_url (mkUrl s h p (encodeQuery ps)) =
          normalize_url (mkUrl s h p
            (encodeQuery (ps.filter (fun kv => !isTrackingKey kv.1))))) ∧
    (∀ s h p q : String, SchemeOK s → HostOK h → PathOK p → QueryOK q →
        normalize_url (mkUrl s h (p ++ "/") q) = normalize_url (mkUrl s h p q)) := by
  refine ⟨?_, ?_, ?_, ?_⟩
  · intro s1 s2 h p q hs1 hs2 hh hp hq hls
    rw [normalize_mkUrl hs1 hh hp hq, normalize_mkUrl hs2 hh hp hq]
    have : lowerChars s1.data = lowerChars s2.data := congrArg String.data hls
    rw [this]
  · intro s h p q hs hh hp hq hw
    rw [normalize_mkUrl hs (hostOK_www hh) hp hq, normalize_mkUrl hs hh hp hq,
      data_www_append,
      show stripWWW ('w' :: 'w' :: 'w' :: '.' :: h.data) = h.data from rfl, hw]
  · intro s h p ps hs hh hp hok
    have hok2 : PairsOK (ps.filter (fun kv => !isTrackingKey kv.1)) := pairsOK_filter hok _
    rw [normalize_mkUrl hs hh hp (queryOK_encodeQuery hok),
      normalize_mkUrl hs hh hp (queryOK_encodeQuery hok2)]
    have hq1 : (encodeQuery ps).data = encodeQueryL ps := rfl
    have hq2 : (encodeQuery (ps.filter (fun kv => !isTrackingKey kv.1))).data =
        encodeQueryL (ps.filter (fun kv => !isTrackingKey kv.1)) := rfl
    rw [hq1, hq2, parse_qs, parse_qs, parse_qsl_encodeQueryL hok,
      parse_qsl_encodeQueryL hok2]
    have hkey : ∀ l : List (List Char × List Char),
        (groupPairs l).filter (fun kv => decide (lowerChars kv.1 ∉ trackingParams)) =
        groupPairs (l.filter (fun kv => decide (lowerChars kv.1 ∉ trackingParams))) := by
      intro l
      exact (groupPairs_filter_key (fun k => decide (lowerChars k ∉ trackingParams)) l).symm
    rw [hkey, hkey]
    have hfilters :
        (ps.filter (fun kv => decide (kv.2 ≠ []))).filter
            (fun kv => decide (lowerChars kv.1 ∉ trackingParams)) =
          ((ps.filter (fun kv => !isTrackingKey kv.1)).filter
            (fun kv => decide (kv.2 ≠ []))).filter
            (fun kv => decide (lowerChars kv.1 ∉ trackingParams)) := by
      rw [List.filter_filter, List.filter_filter, List.filter_filter]
      apply List.filter_congr
      intro kv _
      rcases htr : isTrackingKey kv.1 with _ | _
      · have : decide (lowerChars kv.1 ∉ trackingParams) = true := by
          rw [isTrackingKey] at htr
          simp at htr
          simp [htr]
        simp [this, htr]
      · have : decide (lowerChars kv.1 ∉ trackingParams) = false := by
          rw [isTrackingKey] at htr
          simp at htr
          simp [htr]
        simp [this, htr]
    rw [hfilters]
  · intro s h p q hs hh hp hq
    rw [normalize_mkUrl hs hh (pathOK_append_slash hp) hq, normalize_mkUrl hs hh hp hq,
      data_append_slash, rstripSlash_append_slash]

/-- Witness for C3 at concrete URLs: scheme case, a "www." prefix, a
`utm_source` tracking parameter, and a trailing slash each normalize away. -/
theorem C3_normalize_equivalences_witness :
    (normalize_url (mkUrl "HTTP" "Example.com" "/a" "x=1") =
      normalize_url (mkUrl "http" "Example.com" "/a" "x=1")) ∧
    (normalize_url (mkUrl "http" ("www." ++ "example.com") "/a" "x=1") =
      normalize_url (mkUrl "http" "example.com" "/a" "x=1")) ∧
    (normalize_url (mkUrl "http" "example.com" "/a"
        (encodeQuery [(("ref" : String).data, ("feed0" : String).data),
          (("q" : String).data, ("1" : String).data)])) =
      normalize_url (mkUrl "http" "example.com" "/a"
        (encodeQuery ([(("ref" : String).data, ("feed0" : String).data),
          (("q" : String).data, ("1" : String).data)].filter
            (fun kv => !isTrackingKey kv.1))))) ∧
    (normalize_url (mkUrl "http" "example.com" ("/a" ++ "/") "x=1") =
      normalize_url (mkUrl "http" "example.com" "/a" "x=1")) :=
  ⟨C3_normalize_equivalences.1 "HTTP" "http" "Example.com" "/a" "x=1"
      (by decide) (by decide) (by decide) (by decide) (by decide) (by decide),
   C3_normalize_equivalences.2.1 "http" "example.com" "/a" "x=1"
      (by decide) (by decide) (by decide) (by decide) (by decide),
   C3_normalize_equivalences.2.2.1 "http" "example.com" "/a"
      [(("ref" : String).data, ("feed0" : String).data),
        (("q" : String).data, ("1" : String).data)]
      (by decide) (by decide) (by decide) (by decide),
   C3_normalize_equivalences.2.2.2 "http" "example.com" "/a" "x=1"
      (by decide) (by decide) (by decide) (by decide)⟩

/-- C4 (counterexample): normalization does not keep the surviving query
parameters in their original relative order, and it drops parameters whose
value is blank. `a=1&b=2&a=3` comes back regrouped as `a=1&a=3&b=2`, and
`x=` (not a tracking key) is removed entirely. -/
theorem C4_not_order_preserving_counterexample :
    normalize_url "http://e.com/p?a=1&b=2&a=3" = "http://e.com/p?a=1&a=3&b=2" ∧
    ("http://e.com/p?a=1&a=3&b=2" : String) ≠ "http://e.com/p?a=1&b=2&a=3" ∧
    normalize_url "http://e.com/p?x=" = "http://e.com/p" ∧
    'x' ∉ (normalize_url "http://e.com/p?x=").data :=
  ⟨by decide, by decide, by decide, by decide⟩

theorem groupsOK_of_pairsOK {l : List (List Char × List Char)} (hok : PairsOK l) :
    ∀ x ∈ groupPairs l, (∀ c ∈ x.1, c.isAlphanum = true) ∧
      ∀ v ∈ x.2, ∀ c ∈ v, c.isAlphanum = true := by
  intro x hx
  obtain ⟨kv, hkv, hkey⟩ := groupPairs_keys l.length l (le_refl _) x hx
  constructor
  · intro c hc
    rw [← hkey] at hc
    exact (hok kv hkv).2.1 c hc
  · intro v hv c hc
    have hmem : (x.1, v) ∈ flattenGroups (groupPairs l) := by
      rw [flattenGroups]
      exact List.mem_flatMap.mpr ⟨x, hx, List.mem_map.mpr ⟨v, hv, rfl⟩⟩
    have hkv2 : (x.1, v) ∈ l :=
      mem_of_mem_flattenGroups_groupPairs l.length l (le_refl _) _ hmem
    exact (hok _ hkv2).2.2 c hc

theorem not_tracking_decide (k : List Char) :
    decide (lowerChars k ∉ trackingParams) = !isTrackingKey k := by
  rw [isTrackingKey, decide_not]

/-- C4 (amended): on a well-formed URL whose query serialises a pair list,
normalization keeps exactly the pairs whose key is not deny-listed AND whose
value is nonempty, re-serialised grouped by key in order of first key
occurrence rather than in the original relative pair order. -/
theorem C4_query_param_removal :
    ∀ (s h p : String) (ps : List (List Char × List Char)),
      SchemeOK s → HostOK h → PathOK p → PairsOK ps →
      normalize_url (mkUrl s h p (encodeQuery ps)) =
        String.mk (pyUrlunparse (lowerChars (lowerChars s.data))
          (lowerChars (stripWWW h.data)) (rstripSlash p.data) []
          (encodeQueryL (flattenGroups
            ((groupPairs (ps.filter (fun kv => decide (kv.2 ≠ [])))).filter
              (fun g => decide (lowerChars g.1 ∉ trackingParams))))) []) ∧
      (∀ kv ∈ ps, isTrackingKey kv.1 = false → kv.2 ≠ [] →
        kv ∈ flattenGroups
          ((groupPairs (ps.filter (fun kv => decide (kv.2 ≠ [])))).filter
            (fun g => decide (lowerChars g.1 ∉ trackingParams)))) ∧
      (∀ kv ∈ flattenGroups
          ((groupPairs (ps.filter (fun kv => decide (kv.2 ≠ [])))).filter
            (fun g => decide (lowerChars g.1 ∉ trackingParams))),
        kv ∈ ps ∧ isTrackingKey kv.1 = false ∧ kv.2 ≠ []) := by
  intro s h p ps hs hh hp hok
  have hq1 : (encodeQuery ps).data = encodeQueryL ps := rfl
  have hfg : flattenGroups
      ((groupPairs (ps.filter (fun kv => decide (kv.2 ≠ [])))).filter
        (fun g => decide (lowerChars g.1 ∉ trackingParams))) =
      (flattenGroups (groupPairs (ps.filter (fun kv => decide (kv.2 ≠ []))))).filter
        (fun kv => decide (lowerChars kv.1 ∉ trackingParams)) :=
    flattenGroups_filter (fun k => decide (lowerChars k ∉ trackingParams)) _
  refine ⟨?_, ?_, ?_⟩
  · have hgOK : ∀ x ∈ (groupPairs (ps.filter (fun kv => decide (kv.2 ≠ [])))).filter
        (fun g => decide (lowerChars g.1 ∉ trackingParams)),
        (∀ c ∈ x.1, c.isAlphanum = true) ∧ ∀ v ∈ x.2, ∀ c ∈ v, c.isAlphanum = true := by
      intro x hx
      exact groupsOK_of_pairsOK (pairsOK_filter hok _) x (List.mem_filter.mp hx).1
    rw [normalize_mkUrl hs hh hp (queryOK_encodeQuery hok), hq1, parse_qs,
      parse_qsl_encodeQueryL hok, urlencodeDoseq_eq_encode _ hgOK]
  · intro kv hkv htrk hne
    rw [hfg]
    refine List.mem_filter.mpr ⟨?_, ?_⟩
    · refine mem_flattenGroups_groupPairs _ _ (le_refl _) kv (List.mem_filter.mpr ⟨hkv, ?_⟩)
      simp [hne]
    · show decide (lowerChars kv.1 ∉ trackingParams) = true
      rw [not_tracking_decide, htrk]
      rfl
  · intro kv hkv
    rw [hfg] at hkv
    obtain ⟨h1, h2⟩ := List.mem_filter.mp hkv
    have h3 : kv ∈ ps.filter (fun kv => decide (kv.2 ≠ [])) :=
      mem_of_mem_flattenGroups_groupPairs _ _ (le_refl _) _ h1
    obtain ⟨h4, h5⟩ := List.mem_filter.mp h3
    refine ⟨h4, ?_, of_decide_eq_true h5⟩
    have h6 : (!isTrackingKey kv.1) = true := by
      rw [← not_tracking_decide]
      exact h2
    simpa using h6

/-- Witness for C4 at a concrete pair list: the non-tracking pair
`("q","1")` survives the filtered regrouping. -/
theorem C4_query_param_removal_witness :
    ((("q" : String).data, ("1" : String).data)) ∈
      flattenGroups ((groupPairs (([(("ref" : String).data, ("x" : String).data),
          (("q" : String).data, ("1" : String).data)] :
            List (List Char × List Char)).filter
          (fun kv => decide (kv.2 ≠ [])))).filter
        (fun g => decide (lowerChars g.1 ∉ trackingParams))) :=
  (C4_query_param_removal "http" "e.com" "/p"
      [(("ref" : String).data, ("x" : String).data),
        (("q" : String).data, ("1" : String).data)]
      (by decide) (by decide) (by decide) (by decide)).2.1
    (("q" : String).data, ("1" : String).data) (by decide) (by decide) (by decide)

/-! ## The `re.findall` scanner on texts carrying a `$5B` token or a digit run -/

theorem matchCurrency_cons_none {c : Char} (t : List Char) (h : c ≠ '$') :
    matchCurrency (c :: t) = none := by
  simp [matchCurrency, h]

theorem matchCurrency_token (post : List Char) :
    matchCurrency ('$' :: '5' :: 'B' :: post) = some (['$', '5', 'B'], post) := rfl

theorem matchMagnitude_cons_none {c : Char} (t : List Char)
    (h : (c.isDigit || c == '.') = false) :
    matchMagnitude (c :: t) = none := by
  rw [matchMagnitude]
  simp [spanP, h]

theorem matchMagnitude_token (post : List Char) (hw : WordBoundary post) :
    matchMagnitude ('5' :: 'B' :: post) = some (['5', 'B'], post) := by
  rcases post with _ | ⟨d, t⟩
  · rfl
  · have hd : isWordChar d = false := hw
    rw [matchMagnitude]
    simp [spanP, isBMK, hd]

theorem spanP_append (p : Char → Bool) : ∀ l : List Char, (spanP p l).1 ++ (spanP p l).2 = l
  | [] => rfl
  | a :: rest => by
    by_cases h : p a
    · rcases hs : spanP p rest with ⟨x, y⟩
      have ih := spanP_append p rest
      rw [hs] at ih
      simp only [spanP, if_pos h, hs]
      simpa using ih
    · simp [spanP, if_neg h]

theorem spanP_sat (p : Char → Bool) : ∀ l : List Char, ∀ x ∈ (spanP p l).1, p x = true
  | [] => by simp [spanP]
  | a :: rest => by
    by_cases h : p a
    · rcases hs : spanP p rest with ⟨x, y⟩
      have ih := spanP_sat p rest
      rw [hs] at ih
      simp only [spanP, if_pos h, hs]
      intro z hz
      rcases List.mem_cons.mp hz with rfl | hz2
      · exact h
      · exact ih z hz2
    · simp [spanP, if_neg h]

theorem digitComma_ne_dollar {x : Char} (h : (x.isDigit || x == ',') = true) : x ≠ '$' := by
  rintro rfl
  revert h
  decide

theorem digit_ne_dollar {x : Char} (h : x.isDigit = true) : x ≠ '$' := by
  rintro rfl
  revert h
  decide

theorem digitDot_ne_dollar {x : Char} (h : (x.isDigit || x == '.') = true) : x ≠ '$' := by
  rintro rfl
  revert h
  decide

theorem bmk_ne_dollar {x : Char} (h : isBMK x = true) : x ≠ '$' := by
  rintro rfl
  revert h
  decide

theorem currencyDec_spec (r1 : List Char) :
    (currencyDec r1).1 ++ (currencyDec r1).2 = r1 ∧ ∀ x ∈ (currencyDec r1).1, x ≠ '$' := by
  rcases r1 with _ | ⟨c1, r⟩
  · exact ⟨rfl, by simp [currencyDec]⟩
  · by_cases hc1 : c1 = '.'
    · rcases hs : spanP Char.isDigit r with ⟨ds, rr⟩
      have hap := spanP_append Char.isDigit r
      have hsat := spanP_sat Char.isDigit r
      rw [hs] at hap hsat
      by_cases hds : ds = []
      · rw [currencyDec, if_pos hc1]
        rw [hs]
        simp only [hds, if_pos rfl]
        exact ⟨rfl, by simp⟩
      · rw [currencyDec, if_pos hc1]
        rw [hs]
        simp only [if_neg hds]
        constructor
        · subst hc1
          simpa using hap
        · intro x hx
          rcases List.mem_cons.mp hx with rfl | hx2
          · decide
          · exact digit_ne_dollar (hsat x hx2)
    · rw [currencyDec, if_neg hc1]
      exact ⟨rfl, by simp⟩

theorem matchCurrency_split : ∀ {l mt r : List Char},
    matchCurrency l = some (mt, r) → l = mt ++ r ∧ ∃ tl, mt = '$' :: tl ∧ '$' ∉ tl := by
  intro l mt r h
  rcases l with _ | ⟨c0, rest⟩
  · simp [matchCurrency] at h
  by_cases hc0 : c0 = '$'
  swap
  · simp [matchCurrency, hc0] at h
  subst hc0
  rw [matchCurrency, if_pos rfl] at h
  rcases hs : spanP (fun c => c.isDigit || c == ',') rest with ⟨digits, r1⟩
  rw [hs] at h
  have hap := spanP_append (fun c => c.isDigit || c == ',') rest
  have hsat := spanP_sat (fun c => c.isDigit || c == ',') rest
  rw [hs] at hap hsat
  simp only at h hap hsat
  by_cases hd : digits = []
  · rw [if_pos hd] at h
    simp at h
  rw [if_neg hd] at h
  obtain ⟨hdd, hdne⟩ := currencyDec_spec r1
  rcases hcd : currencyDec r1 with ⟨dec, r2⟩
  rw [hcd] at h hdd hdne
  simp only at h hdd hdne
  have hdollars : ∀ x ∈ digits ++ dec, x ≠ '$' := by
    intro x hx
    rcases List.mem_append.mp hx with h1 | h1
    · exact digitComma_ne_dollar (hsat x h1)
    · exact hdne x h1
  rcases r2 with _ | ⟨c, r3⟩
  · simp only [Option.some.injEq, Prod.mk.injEq] at h
    obtain ⟨h1, h2⟩ := h
    subst h1
    subst h2
    constructor
    · rw [← hap, ← hdd]
      simp
    · exact ⟨digits ++ dec, rfl, fun hmem => (hdollars _ hmem) rfl⟩
  · simp only [] at h
    by_cases hbmk : isBMK c
    · rw [if_pos hbmk] at h
      simp only [Option.some.injEq, Prod.mk.injEq] at h
      obtain ⟨h1, h2⟩ := h
      subst h1
      subst h2
      constructor
      · rw [← hap, ← hdd]
        simp
      · refine ⟨digits ++ dec ++ [c], rfl, ?_⟩
        intro hmem
        rcases List.mem_append.mp hmem with h1 | h1
        · exact hdollars _ h1 rfl
        · have h2 : ('$' : Char) = c := by simpa using h1
          exact (bmk_ne_dollar hbmk) h2.symm
    · rw [if_neg hbmk] at h
      simp only [Option.some.injEq, Prod.mk.injEq] at h
      obtain ⟨h1, h2⟩ := h
      subst h1
      subst h2
      constructor
      · rw [← hap, ← hdd]
        simp
      · exact ⟨digits ++ dec, rfl, fun hmem => (hdollars _ hmem) rfl⟩

theorem matchMagnitude_split : ∀ {l mt r : List Char},
    matchMagnitude l = some (mt, r) → l = mt ++ r ∧ mt ≠ [] ∧ '$' ∉ mt := by
  intro l mt r h
  rw [matchMagnitude] at h
  rcases hs : spanP (fun c => c.isDigit || c == '.') l with ⟨digits, r1⟩
  rw [hs] at h
  have hap := spanP_append (fun c => c.isDigit || c == '.') l
  have hsat := spanP_sat (fun c => c.isDigit || c == '.') l
  rw [hs] at hap hsat
  simp only at h hap hsat
  by_cases hd : digits = []
  · rw [if_pos hd] at h
    simp at h
  rw [if_neg hd] at h
  have hnodollar : ∀ c1, isBMK c1 = true → '$' ∉ digits ++ [c1] := by
    intro c1 hb hmem
    rcases List.mem_append.mp hmem with h1 | h1
    · exact digitDot_ne_dollar (hsat _ h1) rfl
    · have h2 : ('$' : Char) = c1 := by simpa using h1
      exact (bmk_ne_dollar hb) h2.symm
  rcases r1 with _ | ⟨c, r2⟩
  · simp at h
  simp only [] at h
  by_cases hbmk : isBMK c
  swap
  · rw [if_neg hbmk] at h
    simp at h
  rw [if_pos hbmk] at h
  rcases r2 with _ | ⟨d, t⟩
  · simp only [] at h
    simp only [Option.some.injEq, Prod.mk.injEq] at h
    obtain ⟨h1, h2⟩ := h
    subst h1
    subst h2
    refine ⟨?_, by simp, hnodollar c hbmk⟩
    rw [← hap]
    simp
  · simp only [] at h
    by_cases hwc : isWordChar d
    · rw [if_pos hwc] at h
      simp at h
    · rw [if_neg hwc] at h
      simp only [Option.some.injEq, Prod.mk.injEq] at h
      obtain ⟨h1, h2⟩ := h
      subst h1
      subst h2
      refine ⟨?_, by simp, hnodollar c hbmk⟩
      rw [← hap]
      simp

theorem findall_mem_across (m : List Char → Option (List Char × List Char))
    (bar : Char) (tl tok : List Char)
    (hsplit : ∀ l mt r, m l = some (mt, r) → l = mt ++ r ∧ mt ≠ [])
    (hnobar : ∀ l mt r, m l = some (mt, r) → bar ∉ mt.drop 1)
    (hhit : ∀ fuel', tl.length + 1 ≤ fuel' → tok ∈ findallFuel m fuel' (bar :: tl)) :
    ∀ (fuel : Nat) (pre : List Char), pre.length + (tl.length + 1) ≤ fuel →
      tok ∈ findallFuel m fuel (pre ++ bar :: tl)
  | 0, pre, hf => absurd hf (by omega)
  | fuel + 1, [], hf => by
    rw [List.nil_append]
    refine hhit (fuel + 1) ?_
    simp at hf
    omega
  | fuel + 1, c :: pre, hf => by
    rw [List.cons_append]
    rcases hm : m (c :: (pre ++ bar :: tl)) with _ | ⟨mt, r⟩
    · simp only [findallFuel, hm]
      refine findall_mem_across m bar tl tok hsplit hnobar hhit fuel pre ?_
      simp at hf
      omega
    · simp only [findallFuel, hm]
      obtain ⟨hdec, hne⟩ := hsplit _ _ _ hm
      have hnb := hnobar _ _ _ hm
      have hdec2 : (c :: pre) ++ bar :: tl = mt ++ r := by
        rw [List.cons_append]
        exact hdec
      rcases List.append_eq_append_iff.mp hdec2 with ⟨a2, ha1, ha2⟩ | ⟨c2, hc1, hc2⟩
      · rcases a2 with _ | ⟨d, a3⟩
        · rw [List.append_nil] at ha1
          rw [List.nil_append] at ha2
          refine List.mem_cons_of_mem _ ?_
          rw [← ha2]
          refine hhit fuel ?_
          simp at hf
          omega
        · simp only [List.cons_append] at ha2
          injection ha2 with hd htl
          subst hd
          exfalso
          apply hnb
          have hdrop : mt.drop 1 = pre ++ bar :: a3 := by
            rw [ha1, List.cons_append, List.drop_succ_cons, List.drop_zero]
          rw [hdrop]
          exact List.mem_append_right _ (List.mem_cons_self _ _)
      · refine List.mem_cons_of_mem _ ?_
        rw [hc2]
        refine findall_mem_across m bar tl tok hsplit hnobar hhit fuel c2 ?_
        have hlen : pre.length + 1 = mt.length + c2.length := by
          have := congrArg List.length hc1
          simpa using this
        have hmt1 : 1 ≤ mt.length := by
          rcases mt with _ | ⟨x, xs⟩
          · exact absurd rfl hne
          · simp
        simp at hf
        omega

theorem findallFuel_ne_nil_of_match (m : List Char → Option (List Char × List Char)) :
    ∀ (u : List Char) (fuel : Nat) (v : List Char),
      (u ++ v).length ≤ fuel → v ≠ [] → m v ≠ none →
      findallFuel m fuel (u ++ v) ≠ []
  | [], fuel, v, hf, hv, hm => by
    rcases v with _ | ⟨c, t⟩
    · exact absurd rfl hv
    · rcases fuel with _ | f
      · simp at hf
      · rcases hmv : m (c :: t) with _ | p
        · exact absurd hmv hm
        · simp only [List.nil_append, findallFuel, hmv]
          simp
  | c :: u, fuel, v, hf, hv, hm => by
    rcases fuel with _ | f
    · simp at hf
    · rw [List.cons_append]
      rcases hmv : m (c :: (u ++ v)) with _ | p
      · simp only [findallFuel, hmv]
        exact findallFuel_ne_nil_of_match m u f v
          (by simpa using Nat.le_of_succ_le_succ (by simpa using hf)) hv hm
      · simp only [findallFuel, hmv]
        simp

theorem matchYear_some : ∀ {l mt r : List Char}, matchYear l = some (mt, r) →
    mt.length = 4 ∧ ∀ ch ∈ mt, ch.isDigit = true := by
  intro l mt r h
  rcases l with _ | ⟨a, _ | ⟨b, _ | ⟨c, _ | ⟨d, rest⟩⟩⟩⟩
  · simp [matchYear] at h
  · simp [matchYear] at h
  · simp [matchYear] at h
  · simp [matchYear] at h
  · simp only [matchYear] at h
    by_cases hg : (a.isDigit && b.isDigit && c.isDigit && d.isDigit) = true
    · rw [if_pos hg] at h
      simp only [Option.some.injEq, Prod.mk.injEq] at h
      obtain ⟨h1, h2⟩ := h
      subst h1
      simp only [Bool.and_eq_true] at hg
      obtain ⟨⟨⟨ha, hb⟩, hc⟩, hd⟩ := hg
      refine ⟨rfl, ?_⟩
      intro ch hch
      simp only [List.mem_cons, List.not_mem_nil, or_false] at hch
      rcases hch with rfl | rfl | rfl | rfl <;> assumption
    · rw [if_neg hg] at h
      simp at h

theorem findallFuel_year_shape : ∀ (fuel : Nat) (l : List Char),
    ∀ mt ∈ findallFuel matchYear fuel l, mt.length = 4 ∧ ∀ ch ∈ mt, ch.isDigit = true
  | 0, l => by simp [findallFuel]
  | fuel + 1, [] => by simp [findallFuel]
  | fuel + 1, c :: rest => by
    intro mt hmt
    rcases hm : matchYear (c :: rest) with _ | ⟨mt0, r⟩
    · simp only [findallFuel, hm] at hmt
      exact findallFuel_year_shape fuel rest mt hmt
    · simp only [findallFuel, hm] at hmt
      rcases List.mem_cons.mp hmt with rfl | h2
      · exact matchYear_some hm
      · exact findallFuel_year_shape fuel r mt h2

theorem currency_mem (pre post : List Char) :
    ['$', '5', 'B'] ∈ findall matchCurrency (pre ++ '$' :: '5' :: 'B' :: post) := by
  rw [findall]
  refine findall_mem_across matchCurrency '$' ('5' :: 'B' :: post) ['$', '5', 'B']
    ?_ ?_ ?_ _ pre ?_
  · intro l mt r h
    obtain ⟨h1, tl0, h2, -⟩ := matchCurrency_split h
    exact ⟨h1, by simp [h2]⟩
  · intro l mt r h
    obtain ⟨-, tl0, h2, h3⟩ := matchCurrency_split h
    rw [h2, List.drop_succ_cons, List.drop_zero]
    exact h3
  · intro fuel' hf
    rcases fuel' with _ | f
    · simp at hf
    · simp only [findallFuel, matchCurrency_token]
      exact List.mem_cons_self _ _
  · simp

theorem magnitude_mem (pre post : List Char) (hw : WordBoundary post) :
    ['5', 'B'] ∈ findall matchMagnitude (pre ++ '$' :: '5' :: 'B' :: post) := by
  rw [findall]
  refine findall_mem_across matchMagnitude '$' ('5' :: 'B' :: post) ['5', 'B']
    ?_ ?_ ?_ _ pre ?_
  · intro l mt r h
    obtain ⟨h1, h2, -⟩ := matchMagnitude_split h
    exact ⟨h1, h2⟩
  · intro l mt r h
    obtain ⟨-, -, h3⟩ := matchMagnitude_split h
    intro hmem
    exact h3 (List.mem_of_mem_drop hmem)
  · intro fuel' hf
    rcases fuel' with _ | f
    · simp at hf
    · have h1 : matchMagnitude ('$' :: '5' :: 'B' :: post) = none :=
        matchMagnitude_cons_none _ (by decide)
      simp only [findallFuel, h1]
      rcases f with _ | f2
      · simp at hf
      · simp only [findallFuel, matchMagnitude_token post hw]
        exact List.mem_cons_self _ _
  · simp

theorem token_counts (pre post : List Char) (hw : WordBoundary post) :
    String.mk ['$', '5', 'B'] ∈
        extract_numbers (String.mk (pre ++ '$' :: '5' :: 'B' :: post)) ∧
      String.mk ['5', 'B'] ∈
        extract_numbers (String.mk (pre ++ '$' :: '5' :: 'B' :: post)) ∧
      2 ≤ (extract_numbers (String.mk (pre ++ '$' :: '5' :: 'B' :: post))).length := by
  have hcur : ['$', '5', 'B'] ∈ findall matchCurrency (pre ++ '$' :: '5' :: 'B' :: post) :=
    currency_mem pre post
  have hmag : ['5', 'B'] ∈ findall matchMagnitude (pre ++ '$' :: '5' :: 'B' :: post) :=
    magnitude_mem pre post hw
  have hdata : (String.mk (pre ++ '$' :: '5' :: 'B' :: post)).data =
      pre ++ '$' :: '5' :: 'B' :: post := rfl
  refine ⟨?_, ?_, ?_⟩
  · simp only [extract_numbers, hdata]
    exact List.mem_map.mpr ⟨_, by simp [hcur], rfl⟩
  · simp only [extract_numbers, hdata]
    exact List.mem_map.mpr ⟨_, by simp [hmag], rfl⟩
  · simp only [extract_numbers, hdata, List.length_map, List.length_append]
    have h1 : 0 < (findall matchCurrency (pre ++ '$' :: '5' :: 'B' :: post)).length :=
      List.length_pos.mpr (List.ne_nil_of_mem hcur)
    have h2 : 0 < (findall matchMagnitude (pre ++ '$' :: '5' :: 'B' :: post)).length :=
      List.length_pos.mpr (List.ne_nil_of_mem hmag)
    omega

/-- C9: the four extraction patterns run sequentially over the whole text,
so one token is reported by several patterns: every text carrying the token
`$5B` (a word boundary after it, arbitrary text before it) reports both
`$5B` via the currency pattern and `5B` via the magnitude pattern, so at
least two matches in total; a text containing four consecutive digits
yields at least one year match, every year match being exactly four digits;
and an item whose combined title/summary text carries the `$5B` token gets
a numeric-signal component of at least `3 * 2 = 6` points in `score_item`. -/
theorem C9_sequential_pattern_overlap :
    (∀ pre post : List Char,
      WordBoundary post →
      String.mk ['$', '5', 'B'] ∈
          extract_numbers (String.mk (pre ++ '$' :: '5' :: 'B' :: post)) ∧
        String.mk ['5', 'B'] ∈
          extract_numbers (String.mk (pre ++ '$' :: '5' :: 'B' :: post)) ∧
        2 ≤ (extract_numbers (String.mk (pre ++ '$' :: '5' :: 'B' :: post))).length) ∧
    (∀ (pre post : List Char) (a b c d : Char),
      a.isDigit = true → b.isDigit = true → c.isDigit = true → d.isDigit = true →
      findall matchYear (pre ++ a :: b :: c :: d :: post) ≠ [] ∧
      ∀ mt ∈ findall matchYear (pre ++ a :: b :: c :: d :: post),
        mt.length = 4 ∧ ∀ ch ∈ mt, ch.isDigit = true) ∧
    (∀ (item : NewsItem) (pre post : List Char),
      (item.title ++ " " ++ item.summary).data = pre ++ '$' :: '5' :: 'B' :: post →
      WordBoundary post →
      (6 : ℚ) ≤ numbersScoreOf item) := by
  refine ⟨fun pre post hw => token_counts pre post hw, ?_, ?_⟩
  · intro pre post a b c d ha hb hc hd
    constructor
    · refine findallFuel_ne_nil_of_match matchYear pre _ (a :: b :: c :: d :: post)
        (le_refl _) (by simp) ?_
      rw [matchYear, if_pos (by simp [ha, hb, hc, hd])]
      simp
    · exact findallFuel_year_shape _ _
  · intro item pre post hdata hw
    have htext : item.title ++ " " ++ item.summary =
        String.mk (pre ++ '$' :: '5' :: 'B' :: post) := by
      rw [← hdata]
    obtain ⟨-, -, hlen⟩ := token_counts pre post hw
    rw [numbersScoreOf, htext]
    have hne : extract_numbers (String.mk (pre ++ '$' :: '5' :: 'B' :: post)) ≠ [] := by
      intro h0
      rw [h0] at hlen
      simp at hlen
    rw [if_neg hne]
    refine le_min (by norm_num) ?_
    have h6 : (6 : ℕ) ≤
        (extract_numbers (String.mk (pre ++ '$' :: '5' :: 'B' :: post))).length * 3 := by
      omega
    exact_mod_cast h6

/-- Witness for C9 at texts whose prefix itself contains digits and a `$`:
`"$9 and 2024 cost $5B deal"` reports the currency match `$5B`, `"in 2049."`
yields a year match, and `item9` (title `"2024 model costs $5B"`) collects
at least 6 numeric-signal points. -/
theorem C9_sequential_pattern_overlap_witness :
    String.mk ['$', '5', 'B'] ∈
        extract_numbers (String.mk (("$9 and 2024 cost " : String).data ++
          '$' :: '5' :: 'B' :: (" deal" : String).data)) ∧
      findall matchYear (("in " : String).data ++
        '2' :: '0' :: '4' :: '9' :: ("." : String).data) ≠ [] ∧
      (6 : ℚ) ≤ numbersScoreOf item9 :=
  ⟨(C9_sequential_pattern_overlap.1 ("$9 and 2024 cost " : String).data
      (" deal" : String).data (by decide)).1,
   (C9_sequential_pattern_overlap.2.1 ("in " : String).data ("." : String).data
      '2' '0' '4' '9' (by decide) (by decide) (by decide) (by decide)).1,
   C9_sequential_pattern_overlap.2.2 item9 ("2024 model costs " : String).data
      (" " : String).data (by decide) (by decide)⟩

end DailyAITimeline
